import Mathlib

/-!
# AFSK decoder (`DataExtractor`): a shallow embedding and its verified properties

The decode pipeline of `src/src/DataExtractor.cpp` (and of its sibling
`src/paradox_challenge/DataExtractor.cpp`, which adds `reset`) is embedded as
pure Lean functions over explicit state.

Conventions of the embedding.

* `uint8_t` values are naturals below `256`; where the C++ arithmetic wraps, the
  wrap is written out (`% 256`).
* `size_t` is 64 bits wide and `unsigned int` 32 bits wide; the places where the
  C++ code subtracts from an unsigned value carry the wrap explicitly
  (`sizePred` for `size_t`, `% UINT_MOD` for `unsigned int`).
* A read of a `std::vector` / `std::deque` outside its bounds is undefined
  behaviour in C++; the embedding reports it as `Err.OutOfBounds`.
* The index loops of the source are recursive functions with a step budget
  (first explicit argument).  A function that runs out of budget reports
  `Err.OutOfFuel`; the callers pass the length of the container plus one, which
  covers every iteration the loop can make without leaving the container.
* Text written to `std::cout` / `std::cerr` (the logger, the checksum
  diagnostic) is not part of the state and is left out.
* `float` is IEEE-754 binary32 with round-to-nearest-even, every operation
  rounded on its own.  Samples are only ever compared with `0.f`; a sample is a
  rational value or a NaN.
-/

namespace Definitions

/-- Source: `constexpr static unsigned int ONE_LENGTH = 320;` -/
def ONE_LENGTH : Nat := 320

/-- Source: `constexpr static unsigned int START_STREAM_BYTE = 0x42 ^ 0x03;` -/
def START_STREAM_BYTE : Nat := 0x42 ^^^ 0x03

/-- Source: `constexpr static unsigned int END_STREAM_BYTE = 0x00;` -/
def END_STREAM_BYTE : Nat := 0x00

/-- Source: `constexpr static unsigned int MESSAGE_SIZE = 30;` -/
def MESSAGE_SIZE : Nat := 30

/-- Source: `constexpr static unsigned int BYTE_SIZE_PACKED = 11;` -/
def BYTE_SIZE_PACKED : Nat := 11

/-- Number of values of a `size_t` (64 bits): `2 ^ 64`. -/
def SIZE_MOD : Nat := 18446744073709551616

/-- Number of values of an `unsigned int` (32 bits): `2 ^ 32`. -/
def UINT_MOD : Nat := 4294967296

/-- The value of `n - 1` computed in `size_t`: `0 - 1` wraps to the largest `size_t`.  For
`n < SIZE_MOD` this is `(n + SIZE_MOD - 1) % SIZE_MOD`. -/
def sizePred (n : Nat) : Nat := if n = 0 then SIZE_MOD - 1 else n - 1

/-- Source: `using Byte = uint8_t;` (a natural below 256).  The containers below spell
the element type out as `Nat`. -/
abbrev Byte := Nat

/-- Source: `using BitStream = std::deque<bool>;` -/
abbrev BitStream := List Bool

/-- Source: `using ByteStream = std::vector<Byte>;` -/
abbrev ByteStream := List Nat

/-- Source: `using ByteBitstream = std::bitset<BYTE_SIZE_PACKED>;` (11 positions). -/
abbrev ByteBitstream := List Bool

/-- Source: `struct Message { std::array<Byte, MESSAGE_SIZE> data; Byte checksum; };` -/
structure Message where
  data : List Nat
  checksum : Nat
deriving DecidableEq, Repr

/-- Source: `using MessageList = std::vector<Message>;` -/
abbrev MessageList := List Message

/-- A `float` sample as far as the decoder looks at it: NaN or a value. -/
inductive Sample where
  | nan : Sample
  | num (v : ℚ) : Sample
deriving DecidableEq

namespace Sample

/-- Source: `x > 0.f` -/
def gt0 : Sample → Bool
  | nan => false
  | num v => decide (0 < v)

/-- Source: `x < 0.f` -/
def lt0 : Sample → Bool
  | nan => false
  | num v => decide (v < 0)

/-- Source: `x >= 0.f` -/
def ge0 : Sample → Bool
  | nan => false
  | num v => decide (0 ≤ v)

/-- Source: `x <= 0.f` -/
def le0 : Sample → Bool
  | nan => false
  | num v => decide (v ≤ 0)

/-- Source: `x == 0.f` -/
def eq0 : Sample → Bool
  | nan => false
  | num v => decide (v = 0)

/-- Source: `x != 0.f` (true for NaN). -/
def ne0 : Sample → Bool
  | nan => true
  | num v => decide (v ≠ 0)

end Sample

/-- Modelled from the spec: the external audio container `AudioFile<float>`
(`AudioFile.h` is not part of the sources).  It exposes whether `load` succeeded,
the sample rate (an unsigned 32-bit integer, samples per second) and the
per-channel sample sequences. -/
structure AudioData where
  loaded : Bool
  sampleRate : Nat
  samples : List (List Sample)

/-- Source: `audio.getNumChannels()`: the number of channel buffers. -/
def AudioData.getNumChannels (audio : AudioData) : Nat := audio.samples.length

/-- The failures of the pipeline: the three thrown `std::runtime_error`s, a read
outside a container (undefined behaviour in the source), and an exhausted step
budget of the embedding. -/
inductive Err where
  | LoadFailure
  | NoChannelData
  | EmptyOrTooShortStream
  | OutOfBounds
  | OutOfFuel
deriving DecidableEq, Repr

end Definitions

open Definitions

/-- Source: `enum class E_OUT_FORMAT : unsigned int { ASCII = 0, MESSAGE = 1 };` -/
inductive E_OUT_FORMAT where
  | ASCII
  | MESSAGE
deriving DecidableEq, Repr

/-- The data members of `class DataExtractor`. -/
structure DataExtractor where
  _filename : String
  _bitstream : BitStream
  _bytestream : ByteStream
  _messageList : MessageList
  _hasRun : Bool
  _outFormat : E_OUT_FORMAT
deriving DecidableEq

namespace DataExtractor

/-- The constructor `DataExtractor(std::string filename)`: empty buffers,
`_hasRun(false)`, `_outFormat(E_OUT_FORMAT::ASCII)`. -/
def init (filename : String) : DataExtractor :=
  { _filename := filename, _bitstream := [], _bytestream := [], _messageList := [],
    _hasRun := false, _outFormat := E_OUT_FORMAT.ASCII }

/-- Source: `DataExtractor::reset` (only in `paradox_challenge/DataExtractor.cpp`). -/
def reset (s : DataExtractor) (filename : String) : DataExtractor :=
  { s with _filename := filename, _hasRun := false }

/-- Source: `DataExtractor::setOutFormat`. -/
def setOutFormat (s : DataExtractor) (outFormat : E_OUT_FORMAT) : DataExtractor :=
  { s with _outFormat := outFormat }

/-- Source: `DataExtractor::_isValidMessage`: `currentChecksum` is a `uint8_t`, so every
`+=` wraps modulo 256. -/
def _isValidMessage (message : Message) : Bool :=
  message.data.foldl (fun currentChecksum byte => (currentChecksum + byte) % 256) 0
    == message.checksum

/-! ## `_generateBitStream` -/

/-- The condition of the `if` in the zero-crossing loop. -/
def isZeroCrossing (currentSample nextSample : Sample) : Bool :=
  (currentSample.gt0 && nextSample.le0) || (currentSample.lt0 && nextSample.ge0)
    || (currentSample.eq0 && nextSample.ne0)

/-- The loop `for (size_t i = 0; i < rawData.size() - 1; ++i)` of
`_generateBitStream`; `rawData.size() - 1` is computed in `size_t`, and the
pushed index is stored in an `unsigned int`. -/
def zeroCrossingLoop (rawData : List Sample) : Nat → Nat → List Nat → Except Err (List Nat)
  | 0, _, _ => Except.error Err.OutOfFuel
  | fuel + 1, i, zeroCrossings =>
    if i < sizePred rawData.length then
      match rawData[i]?, rawData[i + 1]? with
      | some currentSample, some nextSample =>
        if isZeroCrossing currentSample nextSample then
          zeroCrossingLoop rawData fuel (i + 1) (zeroCrossings ++ [i % UINT_MOD])
        else
          zeroCrossingLoop rawData fuel (i + 1) zeroCrossings
      | _, _ => Except.error Err.OutOfBounds
    else
      Except.ok zeroCrossings

/-- The zero-crossing scan of `_generateBitStream` on the channel-0 buffer,
starting from `std::vector<unsigned int> zeroCrossings;` (empty) and `i = 0`. -/
def zeroCrossingScan (rawData : List Sample) : Except Err (List Nat) :=
  zeroCrossingLoop rawData (rawData.length + 1) 0 []

/-- Round `n / d` to the nearest integer, ties to the even one. -/
def roundHalfEven (n d : Nat) : Nat :=
  let f := n / d
  let r := n % d
  if 2 * r < d then f else if d < 2 * r then f + 1 else if f % 2 = 0 then f else f + 1

/-- A non-negative binary32 value, kept exactly as the fraction `num / den`. -/
structure F32 where
  num : Nat
  den : Nat
deriving DecidableEq, Repr

/-- The halving loop of `log2Floor`. -/
def log2Loop : Nat → Nat → Nat
  | 0, _ => 0
  | fuel + 1, n => if 2 ≤ n then log2Loop fuel (n / 2) + 1 else 0

/-- The position of the highest set bit: the floor of the binary logarithm
(`0` for `n ≤ 1`). -/
def log2Floor (n : Nat) : Nat := log2Loop n n

/-- The binary32 value nearest to `p / q` (`q > 0`), ties to even: 24 significant
bits, subnormals below `2^-126`.  The exponent has no upper limit: values from
`2^128` on, which are an infinity in binary32, do not occur in the timing
computation. -/
def f32Round (p q : Nat) : F32 :=
  if p = 0 then ⟨0, 1⟩
  else if q ≤ p then
    let e := log2Floor (p / q)
    if 23 ≤ e then ⟨roundHalfEven p (q * 2 ^ (e - 23)) * 2 ^ (e - 23), 1⟩
    else ⟨roundHalfEven (p * 2 ^ (23 - e)) q, 2 ^ (23 - e)⟩
  else
    let t0 := log2Floor (q / p)
    let t := min (if p * 2 ^ t0 = q then t0 else t0 + 1) 126
    ⟨roundHalfEven (p * 2 ^ (23 + t)) q, 2 ^ (23 + t)⟩

/-- Source: `static_cast<float>(audio.getSampleRate()) / 1000.f / 1000.f` -/
def SAMPLE_LENGTH_MICROSECONDS (sampleRate : Nat) : F32 :=
  let r := f32Round sampleRate 1
  let a := f32Round r.num (r.den * 1000)
  f32Round a.num (a.den * 1000)

/-- Source: `static_cast<unsigned int>(static_cast<float>(ONE_LENGTH) * SAMPLE_LENGTH_MICROSECONDS)` -/
def SINGLE_TIMEFRAME (sampleRate : Nat) : Nat :=
  let x := SAMPLE_LENGTH_MICROSECONDS sampleRate
  let y := f32Round (ONE_LENGTH * x.num) x.den
  (y.num / y.den) % UINT_MOD

/-- Source: `2 * SINGLE_TIMEFRAME`, an `unsigned int` product. -/
def DOUBLE_TIMEFRAME (sampleRate : Nat) : Nat :=
  (2 * SINGLE_TIMEFRAME sampleRate) % UINT_MOD

/-- The loop `for (size_t i = 0; i < zeroCrossings.size() - 1; ++i)` of
`_generateBitStream`: `diff` is an `unsigned int` difference, and each bit is
pushed to the back of `_bitstream`. -/
def bitLoop (zeroCrossings : List Nat) (doubleTimeframe : Nat) :
    Nat → Nat → BitStream → Except Err BitStream
  | 0, _, _ => Except.error Err.OutOfFuel
  | fuel + 1, i, bitstream =>
    if i < sizePred zeroCrossings.length then
      match zeroCrossings[i]?, zeroCrossings[i + 1]? with
      | some currentCrossing, some nextCrossing =>
        let diff := (nextCrossing + UINT_MOD - currentCrossing) % UINT_MOD
        bitLoop zeroCrossings doubleTimeframe fuel (i + 1)
          (bitstream ++ [decide (diff < doubleTimeframe)])
      | _, _ => Except.error Err.OutOfBounds
    else
      Except.ok bitstream

/-- The bit-recovery loop of `_generateBitStream`, appending to `bitstream`. -/
def bitRecovery (zeroCrossings : List Nat) (doubleTimeframe : Nat) (bitstream : BitStream) :
    Except Err BitStream :=
  bitLoop zeroCrossings doubleTimeframe (zeroCrossings.length + 1) 0 bitstream

/-- Source: `DataExtractor::_generateBitStream`, with the loaded audio file as input. -/
def _generateBitStream (audio : AudioData) (s : DataExtractor) : Except Err DataExtractor :=
  if !audio.loaded then Except.error Err.LoadFailure
  else if audio.getNumChannels < 1 then Except.error Err.NoChannelData
  else
    match audio.samples[0]? with
    | none => Except.error Err.OutOfBounds
    | some rawData =>
      match zeroCrossingScan rawData with
      | Except.error e => Except.error e
      | Except.ok zeroCrossings =>
        match bitRecovery zeroCrossings (DOUBLE_TIMEFRAME audio.sampleRate) s._bitstream with
        | Except.error e => Except.error e
        | Except.ok bitstream => Except.ok { s with _bitstream := bitstream }

/-! ## `_extractByteStream` -/

/-- Source: `DataExtractor::_isEndOfByte`. -/
def _isEndOfByte (bitstream : ByteBitstream) : Bool :=
  !bitstream.getD 0 false && bitstream.getD (BYTE_SIZE_PACKED - 2) false
    && bitstream.getD (BYTE_SIZE_PACKED - 1) false

/-- The inner loop `for (size_t byteIndex = 1; byteIndex < BYTE_SIZE_PACKED - 2; ++byteIndex)`
with body `currentByte |= currentByteEncoding[byteIndex] << (byteIndex - 1);`. -/
def packByte (currentByteEncoding : ByteBitstream) (currentByte : Nat) : Nat :=
  (List.range' 1 (BYTE_SIZE_PACKED - 2 - 1)).foldl
    (fun currentByte byteIndex =>
      (currentByte ||| ((if currentByteEncoding.getD byteIndex false then 1 else 0)
        <<< (byteIndex - 1))) % 256)
    currentByte

/-- The local variables of `_extractByteStream` together with `_bytestream`. -/
structure FrameState where
  currentByteEncoding : ByteBitstream
  currentByte : Nat
  i : Nat
  _bytestream : ByteStream
deriving DecidableEq

/-- One iteration of `for (const auto& bit : _bitstream)` in `_extractByteStream`. -/
def frameStep (st : FrameState) (bit : Bool) : FrameState :=
  let currentByteEncoding := st.currentByteEncoding.set st.i bit
  let i := st.i + 1
  if i % BYTE_SIZE_PACKED = 0 then
    if _isEndOfByte currentByteEncoding then
      { currentByteEncoding := List.replicate BYTE_SIZE_PACKED false, currentByte := 0, i := 0,
        _bytestream := st._bytestream ++ [packByte currentByteEncoding st.currentByte] }
    else
      { currentByteEncoding := List.replicate BYTE_SIZE_PACKED false, currentByte := 0, i := 0,
        _bytestream := st._bytestream }
  else
    { st with currentByteEncoding := currentByteEncoding, i := i }

/-- The byte framer on a bitstream, appending to `bytestream`. -/
def frameBytes (bitstream : BitStream) (bytestream : ByteStream) : ByteStream :=
  (bitstream.foldl frameStep
    { currentByteEncoding := List.replicate BYTE_SIZE_PACKED false, currentByte := 0, i := 0,
      _bytestream := bytestream })._bytestream

/-- Source: `DataExtractor::_extractByteStream`. -/
def _extractByteStream (s : DataExtractor) : DataExtractor :=
  { s with _bytestream := frameBytes s._bitstream s._bytestream }

/-! ## `_constructMessageList` -/

/-- The forward loop `for (; startIndex < _bytestream.size() - 1; ++startIndex)`. -/
def startLoop (bytestream : ByteStream) : Nat → Nat → Except Err Nat
  | 0, _ => Except.error Err.OutOfFuel
  | fuel + 1, startIndex =>
    if startIndex < sizePred bytestream.length then
      match bytestream[startIndex]?, bytestream[startIndex + 1]? with
      | some b0, some b1 =>
        if b0 ^^^ b1 = START_STREAM_BYTE then Except.ok (startIndex + 2)
        else startLoop bytestream fuel (startIndex + 1)
      | _, _ => Except.error Err.OutOfBounds
    else
      Except.ok startIndex

/-- The backward loop `for (; endIndex >= startIndex; --endIndex)`; the decrements
are `size_t` decrements. -/
def endLoop (bytestream : ByteStream) (startIndex : Nat) : Nat → Nat → Except Err Nat
  | 0, _ => Except.error Err.OutOfFuel
  | fuel + 1, endIndex =>
    if startIndex ≤ endIndex then
      match bytestream[endIndex]? with
      | some b =>
        if b = END_STREAM_BYTE then Except.ok (sizePred endIndex)
        else endLoop bytestream startIndex fuel (sizePred endIndex)
      | none => Except.error Err.OutOfBounds
    else
      Except.ok endIndex

/-- The loop `for (size_t i = startIndex; i <= endIndex; ++i)`: a failed checksum
takes the `continue`, which jumps over the `++i` that skips the checksum byte. -/
def messageLoop (bytestream : ByteStream) (endIndex : Nat) :
    Nat → Nat → Nat → Message → MessageList → Except Err MessageList
  | 0, _, _, _, _ => Except.error Err.OutOfFuel
  | fuel + 1, i, byteIndex, currentMessage, messageList =>
    if i ≤ endIndex then
      match bytestream[i]? with
      | none => Except.error Err.OutOfBounds
      | some currentByte =>
        let filled : Message :=
          { currentMessage with data := currentMessage.data.set byteIndex currentByte }
        if (byteIndex + 1) % MESSAGE_SIZE = 0 then
          match bytestream[i + 1]? with
          | none => Except.error Err.OutOfBounds
          | some checksum =>
            let done : Message := { filled with checksum := checksum }
            if !_isValidMessage done then
              messageLoop bytestream endIndex fuel (i + 1) 0 done (messageList ++ [done])
            else
              messageLoop bytestream endIndex fuel (i + 1 + 1) 0 done (messageList ++ [done])
        else
          messageLoop bytestream endIndex fuel (i + 1) (byteIndex + 1) filled messageList
    else
      Except.ok messageList

/-- The body of `_constructMessageList` on a bytestream, appending to `messageList`. -/
def constructMessages (bytestream : ByteStream) (messageList : MessageList) :
    Except Err MessageList :=
  if bytestream.isEmpty || bytestream.length + 2 ≤ START_STREAM_BYTE then
    Except.error Err.EmptyOrTooShortStream
  else
    match startLoop bytestream (bytestream.length + 1) 0 with
    | Except.error e => Except.error e
    | Except.ok startIndex =>
      match endLoop bytestream startIndex (bytestream.length + 1)
          (sizePred bytestream.length) with
      | Except.error e => Except.error e
      | Except.ok endIndex =>
        messageLoop bytestream endIndex (bytestream.length + 1) startIndex 0
          { data := List.replicate MESSAGE_SIZE 0, checksum := 0 } messageList

/-- Source: `DataExtractor::_constructMessageList`. -/
def _constructMessageList (s : DataExtractor) : Except Err DataExtractor :=
  match constructMessages s._bytestream s._messageList with
  | Except.error e => Except.error e
  | Except.ok messageList => Except.ok { s with _messageList := messageList }

/-! ## `run` -/

/-- What a call of `run` leaves behind: the session, and the failure if one was
raised (the members keep what was written before the `throw`). -/
structure RunResult where
  state : DataExtractor
  error : Option Err
deriving DecidableEq

/-- Source: `DataExtractor::run`, with the audio file found under `_filename` as input. -/
def run (audio : AudioData) (s : DataExtractor) : RunResult :=
  let s1 : DataExtractor :=
    if s._hasRun then { s with _bitstream := [], _bytestream := [], _messageList := [] } else s
  match _generateBitStream audio s1 with
  | Except.error e => { state := s1, error := some e }
  | Except.ok s2 =>
    let s3 := _extractByteStream s2
    match _constructMessageList s3 with
    | Except.error e => { state := s3, error := some e }
    | Except.ok s4 => { state := { s4 with _hasRun := true }, error := none }

/-! ## The transmitter side, as the specification words it

These definitions are not translated from the source (the repository holds no
encoder); they follow the specification of the two-tone timing scheme and are
what the decoder is compared with. -/

/-- Specification of the framing: a byte becomes the 11 bits start `0`, the eight
data bits least significant first, stop `1, 1`. -/
def specFrameOfByte (b : Nat) : List Bool :=
  [false] ++ (List.range 8).map (fun k => b.testBit k) ++ [true, true]

/-- Specification of the framing of a byte sequence: the frames one after the other. -/
def specFrameBits : List Nat → List Bool
  | [] => []
  | b :: rest => specFrameOfByte b ++ specFrameBits rest

/-- Specification of the timing scheme: the crossing list has one more entry than
there are bits, its entries do not decrease, and between consecutive crossings a
1-bit is a gap smaller than `2 * u` and a 0-bit a gap of at least `2 * u`. -/
def specEncodes (u : Nat) : List Bool → List Nat → Bool
  | [], [_] => true
  | bit :: bits, c0 :: c1 :: cs =>
    decide (c0 ≤ c1) && (bit == decide (c1 - c0 < 2 * u)) && specEncodes u bits (c1 :: cs)
  | _, _ => false

/-- Specification of a transmitted waveform: after a crossing the signal keeps its
sign for one sample per 1-bit and for two samples per 0-bit, then changes sign;
`positive` is the sign after the latest crossing. -/
def specWaveFrom : Bool → List Bool → List Sample
  | positive, [] => [Sample.num (if positive then 1 else -1)]
  | positive, bit :: bits =>
    List.replicate (if bit then 1 else 2) (Sample.num (if positive then 1 else -1))
      ++ specWaveFrom (!positive) bits

/-- Specification of a one-channel recording that carries the bytes `B`, sampled at
a rate whose unit interval is one sample (4000 samples per second): a first
crossing at index 0, then one gap per frame bit. -/
def specRecording (B : List Nat) : AudioData :=
  { loaded := true, sampleRate := 4000,
    samples := [Sample.num 1 :: specWaveFrom false (specFrameBits B)] }

/-! ## Reference functions, as the specification words them -/

/-- Specification of bit recovery: for each consecutive pair of crossings the
difference `next - cur` is compared with the threshold; the bit is `true` when
the difference is smaller. -/
def specBits (threshold : Nat) (c : List Nat) : List Bool :=
  List.zipWith (fun cur next => decide (next - cur < threshold)) c c.tail

/-- Specification of the crossing condition at index `i`: `s[i] > 0` and
`s[i+1] ≤ 0`, or `s[i] < 0` and `s[i+1] ≥ 0`, or `s[i] = 0` and `s[i+1] ≠ 0`. -/
def specCrossingAt (s : List Sample) (i : Nat) : Bool :=
  match s[i]?, s[i + 1]? with
  | some a, some b => (a.gt0 && b.le0) || (a.lt0 && b.ge0) || (a.eq0 && b.ne0)
  | _, _ => false

/-- Specification of zero-crossing detection: the indices `i` in `0 .. n - 2`, in
increasing order, at which the crossing condition holds. -/
def specCrossings (s : List Sample) : List Nat :=
  (List.range (s.length - 1)).filter (specCrossingAt s)

/-- Specification of the windows of the byte framer: window `j` holds the bits
`11 * j .. 11 * j + 10`, for every `j` below `length / 11`; a trailing remainder
of fewer than 11 bits is in no window. -/
def specWindows (bits : List Bool) : List (List Bool) :=
  (List.range (bits.length / 11)).map (fun j => (bits.drop (11 * j)).take 11)

/-- Specification of a valid frame: bit 0 is `false`, bits 9 and 10 are `true`. -/
def specFrameValid (w : List Bool) : Bool :=
  w.getD 0 false == false && w.getD 9 false == true && w.getD 10 false == true

/-- Specification of the byte of a frame: the sum over `k` in `1 .. 8` of
`bit[k] << (k - 1)`. -/
def specFrameByte (w : List Bool) : Nat :=
  ((List.range' 1 8).map (fun k => (if w.getD k false then 1 else 0) <<< (k - 1))).sum

/-- Specification of the byte framer: the bytes of the valid windows, in order. -/
def specFramer (bits : List Bool) : List Nat :=
  ((specWindows bits).filter specFrameValid).map specFrameByte

/-- Specification of the bytes of a run of records: for each message its 30 data
bytes followed by its checksum byte. -/
def specRecordBytes : List Message → List Nat
  | [] => []
  | m :: rest => m.data ++ [m.checksum] ++ specRecordBytes rest

/-- The binary32 product `static_cast<float>(ONE_LENGTH) * SAMPLE_LENGTH_MICROSECONDS`
of `_generateBitStream`, before its conversion to `unsigned int`:
`SINGLE_TIMEFRAME` is its integer part. -/
def unitProduct (sampleRate : Nat) : F32 :=
  f32Round (ONE_LENGTH * (SAMPLE_LENGTH_MICROSECONDS sampleRate).num)
    (SAMPLE_LENGTH_MICROSECONDS sampleRate).den

/-- The binary32 value nearest to the rational `v` (round to nearest, ties to
even): the magnitude is rounded by `f32Round`, the sign is kept.  A magnitude of
at most `2^-150` underflows to a zero.  A magnitude of `2^128` or more is an
infinity in C++; the model keeps a finite value of the same sign, which every
comparison with `0.f` treats like the infinity. -/
def f32OfRat (v : ℚ) : ℚ :=
  if v < 0 then
    -(((f32Round v.num.natAbs v.den).num : ℚ) / ((f32Round v.num.natAbs v.den).den : ℚ))
  else
    ((f32Round v.num.natAbs v.den).num : ℚ) / ((f32Round v.num.natAbs v.den).den : ℚ)

/-- Specification of amplitude scaling of a `float` sample by the factor `a`: the
product `a * x`, rounded to binary32; a NaN stays a NaN. -/
def specScale (a : ℚ) : Sample → Sample
  | Sample.nan => Sample.nan
  | Sample.num v => Sample.num (f32OfRat (a * v))

/-- Specification of polarity inversion of a sample. -/
def specNegate : Sample → Sample
  | Sample.nan => Sample.nan
  | Sample.num v => Sample.num (-v)

/-! ## Evaluation forms of the binary32 unit computation

The functions of this section compute the same values as `roundHalfEven`,
`log2Floor`, `f32Round` and `unitProduct`, written with the primitive operations
on naturals so that a long table of values evaluates quickly.  Each is proved
equal to the function of the embedding it stands for. -/

/-- Evaluation form of `roundHalfEven n d` for `d > 0`: the floor of `n / d + 1 / 2`,
less one when `n / d` is a tie and that floor is odd. -/
def roundHalfEvenEval (n d : Nat) : Nat :=
  Nat.sub (Nat.div (Nat.add (Nat.mul 2 n) d) (Nat.mul 2 d))
    (Nat.mul (Nat.sub 1 (Nat.mod (Nat.add (Nat.mul 2 n) d) (Nat.mul 2 d)))
      (Nat.mod (Nat.div (Nat.add (Nat.mul 2 n) d) (Nat.mul 2 d)) 2))

/-- The value `w` when `n ≥ 2 ^ w`, and `0` otherwise. -/
def bitAt (n w : Nat) : Nat := Nat.mul w (Nat.sub 1 (Nat.sub 1 (Nat.shiftRight n w)))

/-- Last step of the binary search of `log2Guess`. -/
def lg0 (n a : Nat) : Nat := Nat.add a (bitAt n 1)

/-- Step of the binary search of `log2Guess` with width 2. -/
def lg1 (n a : Nat) : Nat := lg0 (Nat.shiftRight n (bitAt n 2)) (Nat.add a (bitAt n 2))

/-- Step of the binary search of `log2Guess` with width 4. -/
def lg2 (n a : Nat) : Nat := lg1 (Nat.shiftRight n (bitAt n 4)) (Nat.add a (bitAt n 4))

/-- Step of the binary search of `log2Guess` with width 8. -/
def lg3 (n a : Nat) : Nat := lg2 (Nat.shiftRight n (bitAt n 8)) (Nat.add a (bitAt n 8))

/-- Step of the binary search of `log2Guess` with width 16. -/
def lg4 (n a : Nat) : Nat := lg3 (Nat.shiftRight n (bitAt n 16)) (Nat.add a (bitAt n 16))

/-- A candidate for the position of the highest set bit of `n`, found by binary
search over 32 bit positions. -/
def log2Guess (n : Nat) : Nat := lg4 n 0

/-- Evaluation form of `log2Floor`: the candidate of `log2Guess` when it is the
position of the highest set bit (`n >> e = 1`), and `log2Floor n` otherwise. -/
def log2Eval (n : Nat) : Nat :=
  cond (Nat.beq (Nat.shiftRight n (log2Guess n)) 1) (log2Guess n) (log2Floor n)

/-- Evaluation form of the scale exponent `t` of `f32Round` for `p < q`. -/
def tEval (p q : Nat) : Nat :=
  cond (Nat.ble (cond (Nat.beq (Nat.mul p (Nat.pow 2 (log2Eval (Nat.div q p)))) q)
      (log2Eval (Nat.div q p)) (Nat.succ (log2Eval (Nat.div q p)))) 126)
    (cond (Nat.beq (Nat.mul p (Nat.pow 2 (log2Eval (Nat.div q p)))) q)
      (log2Eval (Nat.div q p)) (Nat.succ (log2Eval (Nat.div q p)))) 126

/-- Evaluation form of `(f32Round p q).num` for `q > 0`. -/
def f32NumEval (p q : Nat) : Nat :=
  cond (Nat.beq p 0) 0
    (cond (Nat.ble q p)
      (cond (Nat.ble 23 (log2Eval (Nat.div p q)))
        (Nat.mul (roundHalfEvenEval p (Nat.mul q (Nat.pow 2 (Nat.sub (log2Eval (Nat.div p q)) 23))))
          (Nat.pow 2 (Nat.sub (log2Eval (Nat.div p q)) 23)))
        (roundHalfEvenEval (Nat.mul p (Nat.pow 2 (Nat.sub 23 (log2Eval (Nat.div p q))))) q))
      (roundHalfEvenEval (Nat.mul p (Nat.pow 2 (Nat.add 23 (tEval p q)))) q))

/-- Evaluation form of `(f32Round p q).den`. -/
def f32DenEval (p q : Nat) : Nat :=
  cond (Nat.beq p 0) 1
    (cond (Nat.ble q p)
      (cond (Nat.ble 23 (log2Eval (Nat.div p q))) 1
        (Nat.pow 2 (Nat.sub 23 (log2Eval (Nat.div p q)))))
      (Nat.pow 2 (Nat.add 23 (tEval p q))))

/-- Evaluation form of the last step of the unit computation: the product with
`ONE_LENGTH` and its integer part. -/
def unitStage4 (n d : Nat) : Nat :=
  Nat.div (f32NumEval (Nat.mul 320 n) d) (f32DenEval (Nat.mul 320 n) d)

/-- Evaluation form of the second division by `1000.f`. -/
def unitStage3 (n d : Nat) : Nat :=
  unitStage4 (f32NumEval n (Nat.mul d 1000)) (f32DenEval n (Nat.mul d 1000))

/-- Evaluation form of the first division by `1000.f`. -/
def unitStage2 (n d : Nat) : Nat :=
  unitStage3 (f32NumEval n (Nat.mul d 1000)) (f32DenEval n (Nat.mul d 1000))

/-- Evaluation form of the integer part of `unitProduct sampleRate`. -/
def unitFloorEval (sampleRate : Nat) : Nat :=
  unitStage2 (f32NumEval sampleRate 1) (f32DenEval sampleRate 1)

/-- The table check: for every `k` below the bound, the integer part of the unit
product is `k` at both ends `3125 * k` and `3125 * k + 3124` of step `k`. -/
def unitStepsOK : Nat → Bool
  | 0 => true
  | Nat.succ k =>
    (Nat.beq (unitFloorEval (Nat.mul 3125 k)) k
      && Nat.beq (unitFloorEval (Nat.add (Nat.mul 3125 k) 3124)) k) && unitStepsOK k

end DataExtractor

deriving instance DecidableEq for Except

/-! # Verified properties -/

namespace DataExtractor

/-! ## Checksum -/

/-- The running `uint8_t` sum started at `a % 256` ends at `(a + sum) % 256`. -/
theorem checksum_foldl (data : List Nat) (a : Nat) :
    data.foldl (fun currentChecksum byte => (currentChecksum + byte) % 256) (a % 256)
      = (a + data.sum) % 256 := by
  induction data generalizing a with
  | nil => simp
  | cons b rest ih =>
    simp only [List.foldl_cons, List.sum_cons]
    rw [Nat.mod_add_mod, ih (a + b), Nat.add_assoc]

/-- The checksum computed by `_isValidMessage` is the byte sum modulo 256. -/
theorem checksum_eq_sum_mod (data : List Nat) :
    data.foldl (fun currentChecksum byte => (currentChecksum + byte) % 256) 0
      = data.sum % 256 := by
  have h := checksum_foldl data 0
  rw [Nat.zero_mod, Nat.zero_add] at h
  exact h

/-- The function `sizePred` is the 64-bit wrap-around decrement. -/
theorem sizePred_eq_mod (n : Nat) (h : n < SIZE_MOD) :
    sizePred n = (n + SIZE_MOD - 1) % SIZE_MOD := by
  unfold sizePred SIZE_MOD at *
  split <;> omega

/-- Replacing one entry of a list moves the sum by the difference of the entries. -/
theorem sum_set_add (data : List Nat) (k v : Nat) (hk : k < data.length) :
    (data.set k v).sum + data[k] = data.sum + v := by
  induction data generalizing k with
  | nil => simp at hk
  | cons b rest ih =>
    cases k with
    | zero => simp; omega
    | succ j =>
      have hj : j < rest.length := by simpa using hk
      have := ih j hj
      simp only [List.set_cons_succ, List.sum_cons, List.getElem_cons_succ]
      omega

/-- C4: `_isValidMessage` returns true exactly when the checksum byte equals the
sum of the message's data bytes modulo 256, for every message. -/
theorem isValidMessage_iff_sum_mod_256 (message : Message) :
    _isValidMessage message = true ↔ message.checksum = message.data.sum % 256 := by
  unfold _isValidMessage
  rw [checksum_eq_sum_mod, beq_iff_eq]
  exact eq_comm

/-- C5: in a message that `_isValidMessage` accepts, replacing the data byte at any
position `k < 30` by a different byte value, the checksum left as it is, makes
`_isValidMessage` return false. -/
theorem single_byte_error_detected (message : Message) (k v : Nat)
    (hlen : message.data.length = MESSAGE_SIZE)
    (hbytes : ∀ b ∈ message.data, b < 256)
    (hvalid : _isValidMessage message = true)
    (hk : k < MESSAGE_SIZE) (hv : v < 256)
    (hne : v ≠ message.data.getD k 0) :
    _isValidMessage { message with data := message.data.set k v } = false := by
  have hk2 : k < message.data.length := by rw [hlen]; exact hk
  have hget : message.data.getD k 0 = message.data[k] := by
    simp [List.getD_eq_getElem?_getD, List.getElem?_eq_getElem hk2]
  rw [hget] at hne
  have hold : message.data[k] < 256 := hbytes _ (List.getElem_mem hk2)
  have hsum := sum_set_add message.data k v hk2
  unfold _isValidMessage at hvalid ⊢
  rw [checksum_eq_sum_mod] at hvalid ⊢
  simp only [beq_iff_eq] at hvalid
  simp only [beq_eq_false_iff_ne, ne_eq]
  intro hcontra
  have hcontra2 : (message.data.set k v).sum % 256 = message.checksum := hcontra
  omega

/-- Witness for C5: a valid 30-byte message, byte 3 changed from 3 to 200. -/
theorem single_byte_error_detected_witness :
    _isValidMessage { data := List.range 30, checksum := 179 } = true ∧
    _isValidMessage { data := (List.range 30).set 3 200, checksum := 179 } = false :=
  ⟨by decide,
   single_byte_error_detected { data := List.range 30, checksum := 179 } 3 200
     (by decide) (by decide) (by decide) (by decide) (by decide) (by decide)⟩

/-! ## Byte framing of one concrete frame -/

/-- C6 (as the code behaves): `_extractByteStream` on the 11-bit bitstream
`0,1,0,0,0,0,0,1,0,1,1` yields a bytestream of exactly one byte, `0x41`: bit
positions 1 and 7 are set, and position `k` contributes `1 << (k - 1)`. -/
theorem extractByteStream_frame_0x41 (filename : String) :
    (_extractByteStream
      { init filename with
        _bitstream := [false, true, false, false, false, false, false, true, false,
          true, true] })._bytestream = [0x41] := by
  simp only [_extractByteStream, init]
  decide

/-- C6 as stated fails: the decoded byte of the frame `0,1,0,0,0,0,0,1,0,1,1` is
not `0x21`. -/
theorem extractByteStream_frame_not_0x21 :
    (_extractByteStream
      { init "" with
        _bitstream := [false, true, false, false, false, false, false, true, false,
          true, true] })._bytestream ≠ [0x21] := by
  decide

/-! ## Zero-crossing scan on short buffers -/

/-- C10 (the code at the failing input): on an empty channel buffer the loop bound
`rawData.size() - 1` wraps to the largest `size_t`, so the first iteration reads
`rawData[0]` outside the buffer; on a one-sample buffer the scan reads nothing
and returns the empty crossing list. -/
theorem zeroCrossingScan_short_buffers :
    zeroCrossingScan [] = Except.error Err.OutOfBounds ∧
    ∀ x : Sample, zeroCrossingScan [x] = Except.ok [] := by
  refine ⟨by decide, ?_⟩
  intro x
  simp [zeroCrossingScan, zeroCrossingLoop, sizePred]


/-! ## The loops of `_constructMessageList` never leave the bytestream -/

/-- The forward scan returns an index: the last index of the bytestream when no
marker pair is found, otherwise an index at least two past where it started. -/
theorem startLoop_ok (bs : List Nat) (fuel s : Nat)
    (hs : s + 1 ≤ bs.length) (hfuel : bs.length ≤ fuel + s) :
    ∃ k, startLoop bs fuel s = Except.ok k ∧
      (k = bs.length - 1 ∨ s + 2 ≤ k) ∧ k ≤ bs.length := by
  induction fuel generalizing s with
  | zero => omega
  | succ fuel ih =>
    have hpred : sizePred bs.length = bs.length - 1 := by
      unfold sizePred
      rw [if_neg (by omega)]
    unfold startLoop
    rw [hpred]
    by_cases hlt : s < bs.length - 1
    · rw [if_pos hlt]
      have h0 : bs[s]? = some bs[s] := List.getElem?_eq_getElem (by omega)
      have h1 : bs[s + 1]? = some bs[s + 1] := List.getElem?_eq_getElem (by omega)
      rw [h0, h1]
      by_cases hx : bs[s] ^^^ bs[s + 1] = START_STREAM_BYTE
      · simp only [hx, if_true]
        exact ⟨s + 2, rfl, Or.inr (Nat.le_refl _), by omega⟩
      · simp only [hx, if_false]
        obtain ⟨k, hk, hk2, hk3⟩ := ih (s + 1) (by omega) (by omega)
        exact ⟨k, hk, by omega, hk3⟩
    · rw [if_neg hlt]
      exact ⟨s, rfl, Or.inl (by omega), by omega⟩

/-- The backward scan, started inside the bytestream with `startIndex ≥ 1`,
returns an index without wrapping below zero: either the index before a zero
byte (so at most `length - 2`) or an index below `startIndex`. -/
theorem endLoop_ok (bs : List Nat) (startIndex fuel e : Nat)
    (hstart : 1 ≤ startIndex) (he : e < bs.length) (hfuel : e < fuel) :
    ∃ r, endLoop bs startIndex fuel e = Except.ok r ∧
      (r + 2 ≤ bs.length ∨ r < startIndex) ∧ r < bs.length := by
  induction fuel generalizing e with
  | zero => omega
  | succ fuel ih =>
    unfold endLoop
    by_cases hle : startIndex ≤ e
    · rw [if_pos hle]
      have h0 : bs[e]? = some bs[e] := List.getElem?_eq_getElem he
      have hpred : sizePred e = e - 1 := by
        unfold sizePred
        rw [if_neg (by omega)]
      rw [h0, hpred]
      by_cases hz : bs[e] = END_STREAM_BYTE
      · simp only [hz, if_true]
        exact ⟨e - 1, rfl, Or.inl (by omega), by omega⟩
      · simp only [hz, if_false]
        exact ih (e - 1) (by omega) (by omega)
    · rw [if_neg hle]
      exact ⟨e, rfl, Or.inr (by omega), he⟩

/-- The extraction loop returns a message list whenever its end index is either
at most `length - 2` or below the cursor: every `bytestream[i]` and every
checksum read `bytestream[i + 1]` is inside the bytestream. -/
theorem messageLoop_ok (bs : List Nat) (e fuel i byteIndex : Nat) (cur : Message)
    (ml : List Message)
    (he : e + 2 ≤ bs.length ∨ e < i) (hfuel : e + 1 - i < fuel) :
    ∃ out, messageLoop bs e fuel i byteIndex cur ml = Except.ok out := by
  induction fuel generalizing i byteIndex cur ml with
  | zero => omega
  | succ fuel ih =>
    unfold messageLoop
    by_cases hle : i ≤ e
    · rw [if_pos hle]
      have h0 : bs[i]? = some bs[i] := List.getElem?_eq_getElem (by omega)
      have h1 : bs[i + 1]? = some bs[i + 1] := List.getElem?_eq_getElem (by omega)
      rw [h0, h1]
      simp only []
      by_cases hm : (byteIndex + 1) % MESSAGE_SIZE = 0
      · rw [if_pos hm]
        split
        · exact ih _ _ _ _ (by omega) (by omega)
        · exact ih _ _ _ _ (by omega) (by omega)
      · rw [if_neg hm]
        exact ih _ _ _ _ (by omega) (by omega)
    · rw [if_neg hle]
      exact ⟨ml, rfl⟩

/-- For a bytestream of at least 64 bytes the body of `_constructMessageList`
returns a message list. -/
theorem constructMessages_ok (bs : List Nat) (ml : List Message) (hlen : 64 ≤ bs.length) :
    ∃ out, constructMessages bs ml = Except.ok out := by
  unfold constructMessages
  have hne : bs ≠ [] := by
    intro h
    rw [h] at hlen
    simp at hlen
  have hguard : (bs.isEmpty || decide (bs.length + 2 ≤ START_STREAM_BYTE)) = false := by
    have h65 : START_STREAM_BYTE = 65 := by decide
    rw [h65]
    simp [hne]
    omega
  rw [hguard]
  simp only [Bool.false_eq_true, if_false]
  obtain ⟨k, hk, hk2, hk3⟩ := startLoop_ok bs (bs.length + 1) 0 (by omega) (by omega)
  rw [hk]
  simp only []
  have hpred : sizePred bs.length = bs.length - 1 := by
    unfold sizePred
    rw [if_neg (by omega)]
  rw [hpred]
  obtain ⟨r, hr, hr2, hr3⟩ := endLoop_ok bs k (bs.length + 1) (bs.length - 1)
    (by omega) (by omega) (by omega)
  rw [hr]
  simp only []
  exact messageLoop_ok bs r (bs.length + 1) k 0 _ ml (by omega) (by omega)

/-- The length guard of `_constructMessageList` rejects exactly the bytestreams of
at most 63 bytes. -/
theorem constructMessages_short (bs : List Nat) (ml : List Message) (hlen : bs.length ≤ 63) :
    constructMessages bs ml = Except.error Err.EmptyOrTooShortStream := by
  unfold constructMessages
  have hguard : (bs.isEmpty || decide (bs.length + 2 ≤ START_STREAM_BYTE)) = true := by
    have h65 : START_STREAM_BYTE = 65 := by decide
    rw [h65]
    simp
    omega
  rw [hguard]
  simp


/-! ## What the three loops of `_constructMessageList` compute -/

/-- Adjacent entries of a chain are related. -/
theorem chain_getElem? {R : Nat → Nat → Prop} (l : List Nat) (hl : List.Chain' R l)
    (j a b : Nat) (ha : l[j]? = some a) (hb : l[j + 1]? = some b) : R a b := by
  induction l generalizing j with
  | nil => simp at ha
  | cons x rest ih =>
    cases j with
    | zero =>
      cases rest with
      | nil => simp at hb
      | cons y rest2 =>
        simp at ha hb
        subst ha
        subst hb
        exact (List.chain'_cons.mp hl).1
    | succ j =>
      have ha2 : rest[j]? = some a := by simpa using ha
      have hb2 : rest[j + 1]? = some b := by simpa using hb
      exact ih hl.tail j ha2 hb2

/-- The forward scan stops at the first adjacent pair whose XOR is the start
marker constant and returns the index two past it. -/
theorem startLoop_found (bs : List Nat) (t : Nat)
    (hfirst : ∀ j a b, j < t → bs[j]? = some a → bs[j + 1]? = some b →
      a ^^^ b ≠ START_STREAM_BYTE)
    (a b : Nat) (ha : bs[t]? = some a) (hb : bs[t + 1]? = some b)
    (hab : a ^^^ b = START_STREAM_BYTE)
    (fuel s : Nat) (hs : s ≤ t) (hfuel : t - s < fuel) :
    startLoop bs fuel s = Except.ok (t + 2) := by
  have hlen : t + 1 < bs.length := by
    by_contra hcon
    rw [List.getElem?_eq_none (by omega)] at hb
    exact Option.noConfusion hb
  have hpred : sizePred bs.length = bs.length - 1 := by
    unfold sizePred
    rw [if_neg (by omega)]
  induction fuel generalizing s with
  | zero => omega
  | succ fuel ih =>
    unfold startLoop
    rw [hpred, if_pos (by omega)]
    by_cases hst : s = t
    · subst hst
      rw [ha, hb]
      simp only [hab, if_true]
    · have h0 : bs[s]? = some bs[s] := List.getElem?_eq_getElem (by omega)
      have h1 : bs[s + 1]? = some bs[s + 1] := List.getElem?_eq_getElem (by omega)
      have hx := hfirst s _ _ (by omega) h0 h1
      rw [h0, h1]
      simp only [hx, if_false]
      exact ih (s + 1) (by omega) (by omega)

/-- The backward scan stops at the last zero byte `z` and returns `z - 1`. -/
theorem endLoop_found (bs : List Nat) (startIndex z : Nat)
    (hz : bs[z]? = some END_STREAM_BYTE) (hsz : startIndex ≤ z) (hz1 : 1 ≤ z)
    (fuel e : Nat)
    (hafter : ∀ j b, z < j → j ≤ e → bs[j]? = some b → b ≠ END_STREAM_BYTE)
    (hze : z ≤ e) (he : e < bs.length) (hfuel : e - z < fuel) :
    endLoop bs startIndex fuel e = Except.ok (z - 1) := by
  induction fuel generalizing e with
  | zero => omega
  | succ fuel ih =>
    unfold endLoop
    rw [if_pos (by omega)]
    have hpred : sizePred e = e - 1 := by
      unfold sizePred
      rw [if_neg (by omega)]
    by_cases hez : e = z
    · subst hez
      rw [hz, hpred]
      simp only [if_true]
    · have h0 : bs[e]? = some bs[e] := List.getElem?_eq_getElem he
      have hx := hafter e _ (by omega) (Nat.le_refl _) h0
      rw [h0, hpred]
      simp only [hx, if_false]
      exact ih (e - 1) (fun j b h1 h2 h3 => hafter j b h1 (by omega) h3)
        (by omega) (by omega) (by omega)

/-- Overwriting position `j` of a buffer whose first `j` entries already hold the
first `j` entries of `D` extends the copied prefix by one. -/
theorem take_drop_set (D old : List Nat) (j : Nat) (hD : j < D.length) (hold : j < old.length) :
    (D.take j ++ old.drop j).set j D[j] = D.take (j + 1) ++ old.drop (j + 1) := by
  have hlen : (D.take j).length = j := by
    rw [List.length_take]
    omega
  have hdrop : old.drop j = old[j] :: old.drop (j + 1) := List.drop_eq_getElem_cons hold
  have htake : D.take (j + 1) = D.take j ++ [D[j]] := by
    rw [List.take_succ, List.getElem?_eq_getElem hD]
    rfl
  rw [htake, hdrop]
  have hset : (D.take j ++ old[j] :: old.drop (j + 1)).set j D[j]
      = D.take j ++ (old[j] :: old.drop (j + 1)).set (j - (D.take j).length) D[j] :=
    List.set_append_right _ _ (by omega)
  rw [hset, hlen, Nat.sub_self]
  simp only [List.set_cons_zero, List.append_assoc, List.singleton_append]

/-- Copying the first `j ≤ 29` bytes of a record into `currentMessage.data`:
no message is completed, the cursor and `byteIndex` advance by `j`. -/
theorem messageLoop_fill (bs D : List Nat) (e i0 : Nat) (ml : List Message)
    (hD : D.length = 30)
    (hbs : ∀ t, t < 30 → bs[i0 + t]? = D[t]?)
    (he : i0 + 29 ≤ e)
    (j : Nat) (hj : j ≤ 29) (fuel : Nat) (cur : Message) (hcur : cur.data.length = 30) :
    messageLoop bs e (fuel + j) i0 0 cur ml
      = messageLoop bs e fuel (i0 + j) j
          { data := D.take j ++ cur.data.drop j, checksum := cur.checksum } ml := by
  induction j generalizing fuel with
  | zero => simp
  | succ j ih =>
    have hstep : fuel + (j + 1) = (fuel + 1) + j := by omega
    rw [hstep, ih (by omega) (fuel + 1)]
    rw [messageLoop]
    rw [if_pos (by omega)]
    have hread : bs[i0 + j]? = some D[j] := by
      rw [hbs j (by omega)]
      exact List.getElem?_eq_getElem (by omega)
    rw [hread]
    simp only []
    have hmod : ¬ (j + 1) % MESSAGE_SIZE = 0 := by
      unfold MESSAGE_SIZE
      omega
    rw [if_neg hmod]
    rw [take_drop_set D cur.data j (by omega) (by omega)]
    rfl


/-- The bytes of a record `D` that follows a prefix `pre` sit at `pre.length + t`. -/
theorem getElem?_record (pre D post : List Nat) (c t : Nat) (ht : t < D.length) :
    (pre ++ D ++ c :: post)[pre.length + t]? = D[t]? := by
  rw [List.append_assoc, List.getElem?_append_right (by omega)]
  rw [Nat.add_sub_cancel_left, List.getElem?_append_left ht]

/-- The byte after a record `D` that follows a prefix `pre` is its checksum byte. -/
theorem getElem?_record_checksum (pre D post : List Nat) (c : Nat) :
    (pre ++ D ++ c :: post)[pre.length + D.length]? = some c := by
  rw [List.getElem?_append_right (by simp)]
  simp

/-- One full record in the extraction loop: the 30 bytes `D` are copied, the byte
after them becomes the checksum, the message is appended, and the cursor moves
past the checksum byte only when the checksum is right. -/
theorem messageLoop_record (pre D post : List Nat) (c e fuel : Nat) (cur : Message)
    (ml : List Message) (hD : D.length = 30) (hcur : cur.data.length = 30)
    (he : pre.length + 29 ≤ e) :
    messageLoop (pre ++ D ++ c :: post) e (fuel + 30) pre.length 0 cur ml
      = messageLoop (pre ++ D ++ c :: post) e fuel
          (if _isValidMessage { data := D, checksum := c } then pre.length + 31
            else pre.length + 30)
          0 { data := D, checksum := c } (ml ++ [{ data := D, checksum := c }]) := by
  have hbs : ∀ t, t < 30 → (pre ++ D ++ c :: post)[pre.length + t]? = D[t]? :=
    fun t ht => getElem?_record pre D post c t (by omega)
  have hstep : fuel + 30 = (fuel + 1) + 29 := by omega
  rw [hstep, messageLoop_fill _ D e pre.length ml hD hbs he 29 (Nat.le_refl _) (fuel + 1) cur hcur]
  rw [messageLoop, if_pos he]
  have hread : (pre ++ D ++ c :: post)[pre.length + 29]? = some D[29] := by
    rw [hbs 29 (by omega)]
    exact List.getElem?_eq_getElem (by omega)
  have hck : (pre ++ D ++ c :: post)[pre.length + 29 + 1]? = some c := by
    have h := getElem?_record_checksum pre D post c
    rw [hD] at h
    exact h
  rw [hread, hck]
  simp only []
  rw [take_drop_set D cur.data 29 (by omega) (by omega)]
  have hfull : List.take (29 + 1) D ++ List.drop (29 + 1) cur.data = D := by
    rw [List.take_of_length_le (by omega), List.drop_eq_nil_of_le (by omega)]
    simp
  rw [hfull]
  have hmod : (29 + 1) % MESSAGE_SIZE = 0 := by decide
  rw [if_pos hmod]
  cases hv : _isValidMessage { data := D, checksum := c }
  · simp
  · simp

/-- The body of `_constructMessageList` on a bytestream holding exactly one record
between the start marker and the last zero byte. -/
theorem constructMessages_single (P D S : List Nat) (c : Nat)
    (hD : D.length = 30)
    (hlen : 64 ≤ (P ++ [0x42, 0x03] ++ D ++ [c] ++ [0x00] ++ S).length)
    (hP : List.Chain' (fun a b => a ^^^ b ≠ 65) (P ++ [0x42]))
    (hS : ∀ b ∈ S, b ≠ 0x00) :
    constructMessages (P ++ [0x42, 0x03] ++ D ++ [c] ++ [0x00] ++ S) []
      = Except.ok [{ data := D, checksum := c }] := by
  have h65 : START_STREAM_BYTE = 65 := by decide
  have hn : (P ++ [0x42, 0x03] ++ D ++ [c] ++ [0x00] ++ S).length = P.length + 34 + S.length := by
    simp [hD]
    omega
  -- three groupings of the same bytestream
  have hA : P ++ [0x42, 0x03] ++ D ++ [c] ++ [0x00] ++ S
      = (P ++ [0x42]) ++ ([0x03] ++ D ++ [c] ++ [0x00] ++ S) := by simp
  have hB : P ++ [0x42, 0x03] ++ D ++ [c] ++ [0x00] ++ S
      = (P ++ [0x42, 0x03] ++ D ++ [c]) ++ (0x00 :: S) := by simp
  have hC : P ++ [0x42, 0x03] ++ D ++ [c] ++ [0x00] ++ S
      = (P ++ [0x42, 0x03]) ++ D ++ c :: (0x00 :: S) := by simp
  generalize hbs : P ++ [0x42, 0x03] ++ D ++ [c] ++ [0x00] ++ S = bs at *
  unfold constructMessages
  have hguard : (bs.isEmpty || decide (bs.length + 2 ≤ START_STREAM_BYTE)) = false := by
    have hne : bs ≠ [] := by
      intro h
      rw [h] at hlen
      simp at hlen
    rw [h65]
    simp [hne]
    omega
  rw [hguard]
  simp only [Bool.false_eq_true, if_false]
  -- forward scan
  have hstart : startLoop bs (bs.length + 1) 0 = Except.ok (P.length + 2) := by
    have hlow : ∀ j, j < P.length + 1 → bs[j]? = (P ++ [0x42])[j]? := by
      intro j hj
      rw [hA, List.getElem?_append_left (by simpa using hj)]
    apply startLoop_found bs P.length _ 0x42 0x03 _ _ _ (bs.length + 1) 0 (Nat.zero_le _)
      (by omega)
    · intro j a b hj ha hb
      rw [hlow j (by omega)] at ha
      rw [hlow (j + 1) (by omega)] at hb
      rw [h65]
      exact chain_getElem? _ hP j a b ha hb
    · rw [hlow P.length (by omega)]
      simp
    · rw [hA, List.getElem?_append_right (by simp)]
      simp
    · decide
  rw [hstart]
  simp only []
  -- backward scan
  have hpred : sizePred bs.length = bs.length - 1 := by
    unfold sizePred
    rw [if_neg (by omega)]
  have hend : endLoop bs (P.length + 2) (bs.length + 1) (sizePred bs.length)
      = Except.ok (P.length + 32) := by
    rw [hpred]
    have hpre : (P ++ [0x42, 0x03] ++ D ++ [c]).length = P.length + 33 := by
      simp [hD]
    have hz : bs[P.length + 33]? = some END_STREAM_BYTE := by
      rw [hB, List.getElem?_append_right (by omega), hpre]
      simp [END_STREAM_BYTE]
    have h := endLoop_found bs (P.length + 2) (P.length + 33) hz (by omega) (by omega)
      (bs.length + 1) (bs.length - 1)
      (by
        intro j b hj1 hj2 hjb
        rw [hB, List.getElem?_append_right (by omega), hpre] at hjb
        have hpos : j - (P.length + 33) = (j - (P.length + 34)) + 1 := by omega
        rw [hpos, List.getElem?_cons_succ] at hjb
        have hmem : b ∈ S := List.getElem?_mem hjb
        exact hS b hmem)
      (by omega) (by omega) (by omega)
    exact h
  rw [hend]
  simp only []
  -- extraction loop
  obtain ⟨f, hf⟩ : ∃ f, bs.length + 1 = (f + 2) + 30 := ⟨bs.length - 31, by omega⟩
  rw [hf]
  have hpre2 : (P ++ [0x42, 0x03]).length = P.length + 2 := by simp
  have hrec := messageLoop_record (P ++ [0x42, 0x03]) D (0x00 :: S) c (P.length + 32) (f + 2)
    { data := List.replicate MESSAGE_SIZE 0, checksum := 0 } [] hD
    (by simp [MESSAGE_SIZE]) (by omega)
  rw [hpre2, ← hC] at hrec
  rw [hrec]
  cases hv : _isValidMessage { data := D, checksum := c }
  · -- wrong checksum: the cursor stays on the checksum byte for one more round
    simp only [Bool.false_eq_true, if_false, List.nil_append]
    have hread : bs[P.length + 2 + 30]? = some c := by
      have h := getElem?_record_checksum (P ++ [0x42, 0x03]) D (0x00 :: S) c
      rw [hpre2, hD, ← hC] at h
      exact h
    rw [messageLoop, if_pos (by omega), hread]
    simp only []
    rw [if_neg (by decide)]
    rw [messageLoop, if_neg (by omega)]
  · simp only [if_true, List.nil_append]
    rw [messageLoop, if_neg (by omega)]

/-- C1: for every bytestream `P ++ [0x42, 0x03] ++ D ++ [c] ++ [0x00] ++ S` with
`|D| = 30`, total length at least 64, no adjacent pair of `P ++ [0x42]` XOR-ing
to 65 and no zero byte in `S`, `_constructMessageList` (started with an empty
message list) leaves exactly one message, with data `D` and checksum `c`, for
every `c`; the marker bytes and the terminating zero are not message data. -/
theorem constructMessageList_single_message (s : DataExtractor) (P D S : List Nat) (c : Nat)
    (hbs : s._bytestream = P ++ [0x42, 0x03] ++ D ++ [c] ++ [0x00] ++ S)
    (hml : s._messageList = [])
    (hD : D.length = 30)
    (hlen : 64 ≤ (P ++ [0x42, 0x03] ++ D ++ [c] ++ [0x00] ++ S).length)
    (hP : List.Chain' (fun a b => a ^^^ b ≠ 65) (P ++ [0x42]))
    (hS : ∀ b ∈ S, b ≠ 0x00) :
    _constructMessageList s
      = Except.ok { s with _messageList := [{ data := D, checksum := c }] } := by
  unfold _constructMessageList
  rw [hbs, hml, constructMessages_single P D S c hD hlen hP hS]


/-- Witness for C1: two filler bytes, the marker, the record `0, 1, ..., 29` with the
wrong checksum byte 5, the terminating zero and 28 trailing bytes. -/
theorem constructMessageList_single_message_witness :
    _constructMessageList
        { init "" with
          _bytestream := [7, 8] ++ [0x42, 0x03] ++ List.range 30 ++ [5]
            ++ [0x00] ++ List.replicate 28 9 }
      = Except.ok
        { init "" with
          _bytestream := [7, 8] ++ [0x42, 0x03] ++ List.range 30 ++ [5]
            ++ [0x00] ++ List.replicate 28 9,
          _messageList := [{ data := List.range 30, checksum := 5 }] } :=
  constructMessageList_single_message
    { init "" with
      _bytestream := [7, 8] ++ [0x42, 0x03] ++ List.range 30 ++ [5]
        ++ [0x00] ++ List.replicate 28 9 }
    [7, 8] (List.range 30) (List.replicate 28 9) 5 rfl rfl (by decide) (by decide)
    (by simp) (by decide)

/-- C3 (the code at the failing input): the bytestream is the marker, the record
`1, ..., 1` with the wrong checksum byte 31, the record `100, ..., 129` followed
by the byte 11, and the terminating zero.  After the first message the
cursor is not moved past the checksum byte, so the second message holds
`31, 100, ..., 128` as data and `129` as checksum. -/
theorem constructMessageList_bad_checksum_shifts :
    _constructMessageList
        { init "" with
          _bytestream := [0x42, 0x03] ++ List.replicate 30 1 ++ [31]
            ++ List.range' 100 30 ++ [11] ++ [0x00] }
      = Except.ok
        { init "" with
          _bytestream := [0x42, 0x03] ++ List.replicate 30 1 ++ [31]
            ++ List.range' 100 30 ++ [11] ++ [0x00],
          _messageList :=
            [{ data := List.replicate 30 1, checksum := 31 },
             { data := 31 :: List.range' 100 29, checksum := 129 }] } := by
  decide

/-- C7: `_constructMessageList` fails with `EmptyOrTooShortStream` exactly when the
bytestream is empty or its length plus 2 is at most 65, which is exactly when
its length is at most 63; on every bytestream of length at least 64 it returns
a message list; a 34-byte bytestream made of the marker, 30 data bytes, a
checksum and the terminating zero is rejected. -/
theorem constructMessageList_fails_iff_short (s : DataExtractor) :
    (_constructMessageList s = Except.error Err.EmptyOrTooShortStream ↔
      (s._bytestream = [] ∨ s._bytestream.length + 2 ≤ START_STREAM_BYTE)) ∧
    ((s._bytestream = [] ∨ s._bytestream.length + 2 ≤ START_STREAM_BYTE) ↔
      s._bytestream.length ≤ 63) ∧
    (64 ≤ s._bytestream.length →
      ∃ ml, _constructMessageList s = Except.ok { s with _messageList := ml }) ∧
    (∀ (D : List Nat) (c : Nat), D.length = 30 →
      s._bytestream = [0x42, 0x03] ++ D ++ [c] ++ [0x00] →
      _constructMessageList s = Except.error Err.EmptyOrTooShortStream) := by
  have h65 : START_STREAM_BYTE = 65 := by decide
  have hiff : (s._bytestream = [] ∨ s._bytestream.length + 2 ≤ START_STREAM_BYTE) ↔
      s._bytestream.length ≤ 63 := by
    rw [h65]
    constructor
    · intro h
      rcases h with h | h
      · rw [h]
        simp
      · omega
    · intro h
      exact Or.inr (by omega)
  have hshort : s._bytestream.length ≤ 63 →
      _constructMessageList s = Except.error Err.EmptyOrTooShortStream := by
    intro h
    unfold _constructMessageList
    rw [constructMessages_short _ _ h]
  have hlong : 64 ≤ s._bytestream.length →
      ∃ ml, _constructMessageList s = Except.ok { s with _messageList := ml } := by
    intro h
    obtain ⟨out, hout⟩ := constructMessages_ok s._bytestream s._messageList h
    refine ⟨out, ?_⟩
    unfold _constructMessageList
    rw [hout]
  refine ⟨?_, hiff, hlong, ?_⟩
  · rw [hiff]
    constructor
    · intro herr
      by_contra hcon
      obtain ⟨ml, hml⟩ := hlong (by omega)
      rw [hml] at herr
      exact Except.noConfusion herr
    · exact hshort
  · intro D c hD hbs
    apply hshort
    rw [hbs]
    simp [hD]

/-- Witness for C7: a 64-byte bytestream is accepted. -/
theorem constructMessageList_fails_iff_short_witness :
    64 ≤ ({ init "" with _bytestream := List.replicate 64 7 } : DataExtractor)._bytestream.length ∧
    ∃ ml, _constructMessageList { init "" with _bytestream := List.replicate 64 7 }
      = Except.ok
        { ({ init "" with _bytestream := List.replicate 64 7 } : DataExtractor) with
          _messageList := ml } :=
  ⟨by decide,
   (constructMessageList_fails_iff_short
      { init "" with _bytestream := List.replicate 64 7 }).2.2.1 (by decide)⟩


/-! ## Round trip: framing and timing against bit recovery and byte framing -/

/-- The bit-recovery loop, with the cursor at the start of `rest`, emits the bits
that `rest` encodes. -/
theorem bitLoop_encodes (u : Nat) (bits : List Bool) :
    ∀ (rest pre : List Nat) (acc : List Bool) (fuel : Nat),
      specEncodes u bits rest = true → (∀ x ∈ rest, x < UINT_MOD) → bits.length < fuel →
      bitLoop (pre ++ rest) (2 * u) fuel pre.length acc = Except.ok (acc ++ bits) := by
  induction bits with
  | nil =>
    intro rest pre acc fuel henc _ hfuel
    obtain ⟨x, rfl⟩ : ∃ x, rest = [x] := by
      match rest, henc with
      | [x], _ => exact ⟨x, rfl⟩
    obtain ⟨f, rfl⟩ : ∃ f, fuel = f + 1 := ⟨fuel - 1, by simp at hfuel; omega⟩
    have hpred : sizePred (pre ++ [x]).length = pre.length := by
      unfold sizePred
      simp
    rw [bitLoop, hpred, if_neg (Nat.lt_irrefl _)]
    simp
  | cons bit bits ih =>
    intro rest pre acc fuel henc hrange hfuel
    obtain ⟨c0, c1, cs, rfl⟩ : ∃ c0 c1 cs, rest = c0 :: c1 :: cs := by
      match rest, henc with
      | c0 :: c1 :: cs, _ => exact ⟨c0, c1, cs, rfl⟩
    obtain ⟨f, rfl⟩ : ∃ f, fuel = f + 1 := ⟨fuel - 1, by simp at hfuel; omega⟩
    simp only [specEncodes, Bool.and_eq_true, decide_eq_true_eq, beq_iff_eq] at henc
    obtain ⟨⟨hle, hbit⟩, htail⟩ := henc
    have hc1 : c1 < UINT_MOD := hrange c1 (by simp)
    have hpred : sizePred (pre ++ c0 :: c1 :: cs).length = pre.length + 1 + cs.length := by
      unfold sizePred
      simp
      omega
    have h0 : (pre ++ c0 :: c1 :: cs)[pre.length]? = some c0 := by
      rw [List.getElem?_append_right (Nat.le_refl _)]
      simp
    have h1 : (pre ++ c0 :: c1 :: cs)[pre.length + 1]? = some c1 := by
      rw [List.getElem?_append_right (by omega)]
      simp
    rw [bitLoop, hpred, if_pos (by omega), h0, h1]
    simp only []
    have hdiff : (c1 + UINT_MOD - c0) % UINT_MOD = c1 - c0 := by
      unfold UINT_MOD at *
      omega
    rw [hdiff, ← hbit]
    have hsplit : pre ++ c0 :: c1 :: cs = (pre ++ [c0]) ++ c1 :: cs := by simp
    have hlen : pre.length + 1 = (pre ++ [c0]).length := by simp
    rw [hsplit, hlen]
    rw [ih (c1 :: cs) (pre ++ [c0]) (acc ++ [bit]) f htail
      (fun x hx => hrange x (by simp at hx ⊢; tauto)) (by simp at hfuel; omega)]
    simp

/-- Bit recovery on a crossing list that encodes `bits` returns `bits`. -/
theorem bitRecovery_encodes (u : Nat) (bits : List Bool) (c : List Nat)
    (henc : specEncodes u bits c = true) (hrange : ∀ x ∈ c, x < UINT_MOD) :
    bitRecovery c (2 * u) [] = Except.ok bits := by
  have hlen : bits.length < c.length + 1 := by
    have : ∀ (bits : List Bool) (c : List Nat), specEncodes u bits c = true →
        c.length = bits.length + 1 := by
      intro bits
      induction bits with
      | nil =>
        intro c h
        match c, h with
        | [x], _ => rfl
      | cons bit bits ih =>
        intro c h
        match c, h with
        | c0 :: c1 :: cs, h =>
          simp only [specEncodes, Bool.and_eq_true] at h
          have := ih (c1 :: cs) h.2
          simp at this ⊢
          omega
    have := this bits c henc
    omega
  have h := bitLoop_encodes u bits c [] [] (c.length + 1) henc hrange hlen
  simpa [bitRecovery] using h

/-- The data bits of a frame, packed least significant first, give the byte back. -/
theorem packByte_specFrame : ∀ b, b < 256 → packByte (specFrameOfByte b) 0 = b := by
  set_option maxRecDepth 100000 in decide

/-- The frame of a byte, written out. -/
theorem specFrameOfByte_eq (b : Nat) : specFrameOfByte b =
    [false, b.testBit 0, b.testBit 1, b.testBit 2, b.testBit 3, b.testBit 4, b.testBit 5,
      b.testBit 6, b.testBit 7, true, true] := by
  rfl

/-- The eleven iterations of the byte framer over a well-formed frame push the
packed data bits and leave the scratch variables reset. -/
theorem frameStep_frame (b0 b1 b2 b3 b4 b5 b6 b7 : Bool) (out : List Nat) :
    [false, b0, b1, b2, b3, b4, b5, b6, b7, true, true].foldl frameStep
        { currentByteEncoding := List.replicate BYTE_SIZE_PACKED false, currentByte := 0,
          i := 0, _bytestream := out }
      = { currentByteEncoding := List.replicate BYTE_SIZE_PACKED false, currentByte := 0,
          i := 0,
          _bytestream :=
            out ++ [packByte [false, b0, b1, b2, b3, b4, b5, b6, b7, true, true] 0] } := by
  simp [frameStep, _isEndOfByte, BYTE_SIZE_PACKED, List.replicate]

/-- The eleven iterations of the byte framer over the frame of one byte push that
byte and leave the scratch variables reset. -/
theorem frameStep_specFrame (b : Nat) (hb : b < 256) (out : List Nat) :
    (specFrameOfByte b).foldl frameStep
        { currentByteEncoding := List.replicate BYTE_SIZE_PACKED false, currentByte := 0,
          i := 0, _bytestream := out }
      = { currentByteEncoding := List.replicate BYTE_SIZE_PACKED false, currentByte := 0,
          i := 0, _bytestream := out ++ [b] } := by
  have hpack := packByte_specFrame b hb
  rw [specFrameOfByte_eq] at hpack ⊢
  rw [frameStep_frame, hpack]

/-- The byte framer on the frames of a byte sequence appends that sequence. -/
theorem frameBytes_specFrameBits (B : List Nat) (hB : ∀ b ∈ B, b < 256) (out : List Nat) :
    frameBytes (specFrameBits B) out = out ++ B := by
  induction B generalizing out with
  | nil => simp [specFrameBits, frameBytes]
  | cons b rest ih =>
    have hb : b < 256 := hB b (by simp)
    have hrest : ∀ x ∈ rest, x < 256 := fun x hx => hB x (by simp [hx])
    have h := ih hrest (out ++ [b])
    unfold frameBytes at h ⊢
    rw [specFrameBits, List.foldl_append, frameStep_specFrame b hb out, h]
    simp

/-- C2: for every byte list `B` and every unit `u`, if the bytes are framed as
start `0`, eight data bits least significant first, stop `1, 1`, and the bits
are laid out as a zero-crossing index list in which a 1-bit is a gap smaller
than `2 * u` and a 0-bit a gap of at least `2 * u`, then bit recovery with the
threshold `2 * u` followed by `_extractByteStream` returns exactly `B`. -/
theorem encode_decode_roundtrip (B : List Nat) (u : Nat) (c : List Nat) (filename : String)
    (hB : ∀ b ∈ B, b < 256)
    (hc : specEncodes u (specFrameBits B) c = true)
    (hrange : ∀ x ∈ c, x < UINT_MOD) :
    ∃ bits, bitRecovery c (2 * u) [] = Except.ok bits ∧
      (_extractByteStream { init filename with _bitstream := bits })._bytestream = B := by
  refine ⟨specFrameBits B, bitRecovery_encodes u _ c hc hrange, ?_⟩
  have h := frameBytes_specFrameBits B hB []
  simpa [_extractByteStream, init] using h

/-- Witness for C2: the byte `0x21` at `u = 14`, short gaps of 14 and long gaps of
28 samples. -/
theorem encode_decode_roundtrip_witness :
    ∃ bits,
      bitRecovery [0, 28, 42, 70, 98, 126, 154, 168, 196, 224, 238, 252] (2 * 14) []
        = Except.ok bits ∧
      (_extractByteStream { init "" with _bitstream := bits })._bytestream = [0x21] :=
  encode_decode_roundtrip [0x21] 14 [0, 28, 42, 70, 98, 126, 154, 168, 196, 224, 238, 252] ""
    (by decide) (by decide) (by decide)


/-! ## Running a session more than once -/

/-- A run on a session whose `_hasRun` flag is set starts from cleared buffers, so
it ends as the run on the session with the buffers emptied does. -/
theorem run_of_hasRun (audio : AudioData) (s : DataExtractor) (h : s._hasRun = true) :
    run audio s
      = run audio { s with _bitstream := [], _bytestream := [], _messageList := [] } := by
  unfold run
  simp [h]

/-- C8: for every input on which `run` succeeds on a fresh session, a second `run`
on the same session and the same input leaves the session exactly as the first
run left it: the same bitstream, bytestream and message list, nothing
accumulated or duplicated. -/
theorem run_twice_same (audio : AudioData) (filename : String)
    (hok : (run audio (init filename)).error = none) :
    run audio (run audio (init filename)).state = run audio (init filename) := by
  unfold run at hok ⊢
  simp only [init, Bool.false_eq_true, if_false] at hok ⊢
  unfold _generateBitStream at hok ⊢
  cases hl : audio.loaded with
  | false => simp [hl] at hok
  | true =>
    simp only [hl, Bool.not_true, Bool.false_eq_true, if_false] at hok ⊢
    by_cases hch : audio.getNumChannels < 1
    · simp [hch] at hok
    · simp only [hch, if_false] at hok ⊢
      cases hraw : audio.samples[0]? with
      | none => simp [hraw] at hok
      | some rawData =>
        simp only [hraw] at hok ⊢
        cases hzc : zeroCrossingScan rawData with
        | error e => simp [hzc] at hok
        | ok zeroCrossings =>
          simp only [hzc] at hok ⊢
          cases hbits : bitRecovery zeroCrossings (DOUBLE_TIMEFRAME audio.sampleRate) [] with
          | error e => simp [hbits] at hok
          | ok bits =>
            simp only [hbits] at hok ⊢
            unfold _constructMessageList _extractByteStream at hok ⊢
            simp only [] at hok ⊢
            cases hml : constructMessages (frameBytes bits []) [] with
            | error e => simp [hml] at hok
            | ok ml => simp [hl, hch, hraw, hzc, hbits, hml]


/-! ## The whole pipeline on a specified recording -/

/-- Two samples of opposite sign make a zero crossing, two of the same sign none. -/
theorem isZeroCrossing_signs (p : Bool) :
    isZeroCrossing (Sample.num (if (!p) = true then 1 else -1))
        (Sample.num (if p = true then 1 else -1)) = true ∧
    isZeroCrossing (Sample.num (if p = true then 1 else -1))
        (Sample.num (if p = true then 1 else -1)) = false := by
  cases p <;> decide

/-- The length of a specified waveform is positive. -/
theorem specWaveFrom_length_pos (p : Bool) (bits : List Bool) :
    0 < (specWaveFrom p bits).length := by
  cases bits with
  | nil => simp [specWaveFrom]
  | cons b rest => cases b <;> simp [specWaveFrom]

/-- The zero-crossing loop on a specified waveform, with the cursor on the last
sample before a sign change: it records that index and then one crossing per
bit, at distance 1 for a 1-bit and 2 for a 0-bit. -/
theorem zeroCrossingLoop_specWave (bits : List Bool) :
    ∀ (p : Bool) (pre : List Sample) (acc : List Nat) (fuel : Nat),
      (pre ++ Sample.num (if (!p) = true then 1 else -1) :: specWaveFrom p bits).length
        ≤ UINT_MOD →
      (specWaveFrom p bits).length < fuel →
      ∃ zc,
        zeroCrossingLoop (pre ++ Sample.num (if (!p) = true then 1 else -1) :: specWaveFrom p bits)
            fuel pre.length acc = Except.ok (acc ++ pre.length :: zc) ∧
        specEncodes 1 bits (pre.length :: zc) = true ∧
        ∀ x ∈ zc, x < UINT_MOD := by
  induction bits with
  | nil =>
    intro p pre acc fuel hlen hfuel
    simp only [specWaveFrom, List.length_singleton] at hfuel
    simp only [specWaveFrom] at hlen ⊢
    obtain ⟨f, rfl⟩ : ∃ f, fuel = f + 2 := ⟨fuel - 2, by omega⟩
    refine ⟨[], ?_, by simp [specEncodes], by simp⟩
    have hl : (pre ++ [Sample.num (if (!p) = true then 1 else -1),
        Sample.num (if p = true then 1 else -1)]).length = pre.length + 2 := by simp
    rw [hl] at hlen
    have hpred : sizePred (pre.length + 2) = pre.length + 1 := by
      unfold sizePred
      rw [if_neg (by omega)]
      rfl
    have h0 : (pre ++ [Sample.num (if (!p) = true then 1 else -1),
        Sample.num (if p = true then 1 else -1)])[pre.length]?
        = some (Sample.num (if (!p) = true then 1 else -1)) := by
      rw [List.getElem?_append_right (Nat.le_refl _)]
      simp
    have h1 : (pre ++ [Sample.num (if (!p) = true then 1 else -1),
        Sample.num (if p = true then 1 else -1)])[pre.length + 1]?
        = some (Sample.num (if p = true then 1 else -1)) := by
      rw [List.getElem?_append_right (by omega)]
      simp
    have hmod : pre.length % UINT_MOD = pre.length := Nat.mod_eq_of_lt (by omega)
    rw [zeroCrossingLoop, hl, hpred, if_pos (by omega), h0, h1]
    simp only [(isZeroCrossing_signs p).1, if_true]
    rw [zeroCrossingLoop, hl, hpred, if_neg (by omega), hmod]
  | cons bit bits ih =>
    intro p pre acc fuel hlen hfuel
    have hpos := specWaveFrom_length_pos (!p) bits
    cases bit with
    | true =>
      simp only [specWaveFrom, if_true, List.replicate_one, List.singleton_append,
        List.length_cons] at hlen hfuel ⊢
      obtain ⟨f, rfl⟩ : ∃ f, fuel = f + 1 := ⟨fuel - 1, by omega⟩
      have hl : (pre ++ Sample.num (if (!p) = true then 1 else -1)
          :: Sample.num (if p = true then 1 else -1) :: specWaveFrom (!p) bits).length
          = pre.length + 2 + (specWaveFrom (!p) bits).length := by
        simp
        omega
      rw [hl] at hlen
      have hpred : sizePred (pre.length + 2 + (specWaveFrom (!p) bits).length)
          = pre.length + 1 + (specWaveFrom (!p) bits).length := by
        unfold sizePred
        rw [if_neg (by omega)]
        omega
      have h0 : (pre ++ Sample.num (if (!p) = true then 1 else -1)
          :: Sample.num (if p = true then 1 else -1) :: specWaveFrom (!p) bits)[pre.length]?
          = some (Sample.num (if (!p) = true then 1 else -1)) := by
        rw [List.getElem?_append_right (Nat.le_refl _)]
        simp
      have h1 : (pre ++ Sample.num (if (!p) = true then 1 else -1)
          :: Sample.num (if p = true then 1 else -1) :: specWaveFrom (!p) bits)[pre.length + 1]?
          = some (Sample.num (if p = true then 1 else -1)) := by
        rw [List.getElem?_append_right (by omega)]
        simp
      have hmod : pre.length % UINT_MOD = pre.length := Nat.mod_eq_of_lt (by omega)
      rw [zeroCrossingLoop, hl, hpred, if_pos (by omega), h0, h1]
      simp only [(isZeroCrossing_signs p).1, if_true]
      rw [hmod]
      have hih := ih (!p) (pre ++ [Sample.num (if (!p) = true then 1 else -1)])
        (acc ++ [pre.length]) f
        (by simp only [Bool.not_not]; simp at hlen ⊢; omega) (by omega)
      simp only [Bool.not_not, List.append_assoc, List.singleton_append, List.length_append,
        List.length_singleton] at hih
      obtain ⟨zc, hzc, henc, hrange⟩ := hih
      refine ⟨(pre.length + 1) :: zc, hzc, ?_, ?_⟩
      · simp only [specEncodes, Bool.and_eq_true, decide_eq_true_eq, beq_iff_eq]
        exact ⟨⟨by omega, by simp⟩, henc⟩
      · intro x hx
        rcases List.mem_cons.mp hx with h | h
        · omega
        · exact hrange x h
    | false =>
      simp only [specWaveFrom, Bool.false_eq_true, if_false, List.length_append,
        List.length_replicate] at hlen hfuel ⊢
      have hrep : ∀ (a : Sample), List.replicate 2 a = [a, a] := fun _ => rfl
      rw [hrep] at hlen ⊢
      simp only [List.cons_append, List.nil_append] at hlen ⊢
      obtain ⟨f, rfl⟩ : ∃ f, fuel = f + 2 := ⟨fuel - 2, by omega⟩
      have hl : (pre ++ Sample.num (if (!p) = true then 1 else -1)
          :: Sample.num (if p = true then 1 else -1)
          :: Sample.num (if p = true then 1 else -1) :: specWaveFrom (!p) bits).length
          = pre.length + 3 + (specWaveFrom (!p) bits).length := by
        simp
        omega
      have hlen2 : pre.length + 3 + (specWaveFrom (!p) bits).length ≤ UINT_MOD := by
        simp only [List.length_cons] at hlen
        omega
      have hpred : sizePred (pre.length + 3 + (specWaveFrom (!p) bits).length)
          = pre.length + 2 + (specWaveFrom (!p) bits).length := by
        unfold sizePred
        rw [if_neg (by omega)]
        omega
      have h0 : (pre ++ Sample.num (if (!p) = true then 1 else -1)
          :: Sample.num (if p = true then 1 else -1)
          :: Sample.num (if p = true then 1 else -1) :: specWaveFrom (!p) bits)[pre.length]?
          = some (Sample.num (if (!p) = true then 1 else -1)) := by
        rw [List.getElem?_append_right (Nat.le_refl _)]
        simp
      have h1 : (pre ++ Sample.num (if (!p) = true then 1 else -1)
          :: Sample.num (if p = true then 1 else -1)
          :: Sample.num (if p = true then 1 else -1) :: specWaveFrom (!p) bits)[pre.length + 1]?
          = some (Sample.num (if p = true then 1 else -1)) := by
        rw [List.getElem?_append_right (by omega)]
        simp
      have h2 : (pre ++ Sample.num (if (!p) = true then 1 else -1)
          :: Sample.num (if p = true then 1 else -1)
          :: Sample.num (if p = true then 1 else -1)
          :: specWaveFrom (!p) bits)[pre.length + 1 + 1]?
          = some (Sample.num (if p = true then 1 else -1)) := by
        rw [List.getElem?_append_right (by omega)]
        have hsub : pre.length + 1 + 1 - pre.length = 2 := by omega
        rw [hsub]
        simp
      have hmod : pre.length % UINT_MOD = pre.length := Nat.mod_eq_of_lt (by omega)
      rw [zeroCrossingLoop, hl, hpred, if_pos (by omega), h0, h1]
      simp only [(isZeroCrossing_signs p).1, if_true]
      rw [hmod, zeroCrossingLoop, hl, hpred, if_pos (by omega), h1, h2]
      simp only [(isZeroCrossing_signs p).2, Bool.false_eq_true, if_false]
      have hih := ih (!p) (pre ++ [Sample.num (if (!p) = true then 1 else -1),
          Sample.num (if p = true then 1 else -1)])
        (acc ++ [pre.length]) f
        (by simp only [Bool.not_not]; simp; omega) (by omega)
      simp only [Bool.not_not, List.append_assoc, List.cons_append, List.nil_append,
        List.length_append, List.length_cons, List.length_nil] at hih
      obtain ⟨zc, hzc, henc, hrange⟩ := hih
      refine ⟨(pre.length + 2) :: zc, hzc, ?_, ?_⟩
      · simp only [specEncodes, Bool.and_eq_true, decide_eq_true_eq, beq_iff_eq]
        exact ⟨⟨by omega, by simp⟩, henc⟩
      · intro x hx
        rcases List.mem_cons.mp hx with h | h
        · omega
        · exact hrange x h


/-- The zero-crossing scan of a specified recording yields a crossing list that
encodes the frame bits with unit 1. -/
theorem zeroCrossingScan_specWave (bits : List Bool)
    (hsize : (Sample.num 1 :: specWaveFrom false bits).length ≤ UINT_MOD) :
    ∃ zc, zeroCrossingScan (Sample.num 1 :: specWaveFrom false bits) = Except.ok zc ∧
      specEncodes 1 bits zc = true ∧ ∀ x ∈ zc, x < UINT_MOD := by
  have h := zeroCrossingLoop_specWave bits false [] []
    ((Sample.num 1 :: specWaveFrom false bits).length + 1)
    (by simpa using hsize) (by simp only [List.length_cons]; omega)
  simp only [Bool.not_false, if_true, List.nil_append, List.length_nil] at h
  obtain ⟨zc, hzc, henc, hrange⟩ := h
  refine ⟨0 :: zc, hzc, henc, ?_⟩
  intro x hx
  rcases List.mem_cons.mp hx with h | h
  · rw [h]
    decide
  · exact hrange x h

/-- The whole pipeline on a specified recording of at least 64 bytes: `run` on a
fresh session succeeds, the bitstream is the frame bits and the bytestream is
the byte sequence that was sent. -/
theorem run_specRecording (B : List Nat) (filename : String)
    (hB : ∀ b ∈ B, b < 256) (hlen : 64 ≤ B.length)
    (hsize : (Sample.num 1 :: specWaveFrom false (specFrameBits B)).length ≤ UINT_MOD) :
    ∃ ml, run (specRecording B) (init filename)
      = { state :=
            { init filename with
              _bitstream := specFrameBits B, _bytestream := B, _messageList := ml,
              _hasRun := true },
          error := none } := by
  obtain ⟨zc, hzc, henc, hrange⟩ := zeroCrossingScan_specWave (specFrameBits B) hsize
  have hbits := bitRecovery_encodes 1 (specFrameBits B) zc henc hrange
  have hthr : DOUBLE_TIMEFRAME 4000 = 2 * 1 := by decide
  have hbytes := frameBytes_specFrameBits B hB []
  rw [List.nil_append] at hbytes
  obtain ⟨ml, hml⟩ := constructMessages_ok B [] hlen
  refine ⟨ml, ?_⟩
  simp [run, init, _generateBitStream, specRecording, AudioData.getNumChannels, hzc, hthr,
    hbits, _extractByteStream, hbytes, _constructMessageList, hml]

/-- Witness for C8: the recording of a 64-byte transmission (marker, one record,
terminating zero, 30 trailing bytes). -/
theorem run_twice_same_witness :
    run (specRecording ([0x42, 0x03] ++ List.range 30 ++ [179] ++ [0x00] ++ List.replicate 30 9))
        (run (specRecording
          ([0x42, 0x03] ++ List.range 30 ++ [179] ++ [0x00] ++ List.replicate 30 9))
          (init "")).state
      = run (specRecording
          ([0x42, 0x03] ++ List.range 30 ++ [179] ++ [0x00] ++ List.replicate 30 9))
          (init "") :=
  run_twice_same
    (specRecording ([0x42, 0x03] ++ List.range 30 ++ [179] ++ [0x00] ++ List.replicate 30 9)) ""
    (by
      obtain ⟨ml, hml⟩ := run_specRecording
        ([0x42, 0x03] ++ List.range 30 ++ [179] ++ [0x00] ++ List.replicate 30 9) ""
        (by decide) (by decide) (by set_option maxRecDepth 100000 in decide)
      rw [hml])

/-- C9 (the code at the failing input): the recording is four samples `1, -1, 1, -1`
at 44100 samples per second.  The first `run` on a fresh session fails with
`EmptyOrTooShortStream` after pushing two bits and leaves `_hasRun` false; the
second `run` on the same input therefore clears nothing and fails with four
bits in `_bitstream`, where a fresh session has two. -/
theorem run_after_failed_run_keeps_bits :
    (run { loaded := true, sampleRate := 44100,
           samples := [[Sample.num 1, Sample.num (-1), Sample.num 1, Sample.num (-1)]] }
        (init "")).error = some Err.EmptyOrTooShortStream ∧
    (run { loaded := true, sampleRate := 44100,
           samples := [[Sample.num 1, Sample.num (-1), Sample.num 1, Sample.num (-1)]] }
        (init "")).state._bitstream = [true, true] ∧
    (run { loaded := true, sampleRate := 44100,
           samples := [[Sample.num 1, Sample.num (-1), Sample.num 1, Sample.num (-1)]] }
        (init "")).state._hasRun = false ∧
    (run { loaded := true, sampleRate := 44100,
           samples := [[Sample.num 1, Sample.num (-1), Sample.num 1, Sample.num (-1)]] }
        (run { loaded := true, sampleRate := 44100,
               samples := [[Sample.num 1, Sample.num (-1), Sample.num 1, Sample.num (-1)]] }
          (init "")).state).state._bitstream = [true, true, true, true] := by
  decide

/-! ## Bit recovery against its reference -/

/-- C11 (the code at the failing input): on an empty crossing list the loop bound
`zeroCrossings.size() - 1` wraps to the largest `size_t`, so the first
iteration reads `zeroCrossings[0]` outside the list; a buffer without any sign
change, such as the two samples `1, 1`, leads there.  On a one-entry crossing
list the loop reads nothing and leaves the bitstream as it was. -/
theorem bitRecovery_short_lists (threshold : Nat) (bits : List Bool) :
    bitRecovery [] threshold bits = Except.error Err.OutOfBounds ∧
    (∀ x : Nat, bitRecovery [x] threshold bits = Except.ok bits) ∧
    _generateBitStream
        { loaded := true, sampleRate := 44100, samples := [[Sample.num 1, Sample.num 1]] }
        (init "") = Except.error Err.OutOfBounds := by
  refine ⟨?_, ?_, by decide⟩
  · simp [bitRecovery, bitLoop, sizePred, SIZE_MOD]
  · intro x
    simp [bitRecovery, bitLoop, sizePred]

/-- A non-decreasing, non-empty crossing list encodes its reference bits. -/
theorem specEncodes_specBits (u : Nat) (c : List Nat) (hne : c ≠ [])
    (hinc : List.Chain' (fun a b => a ≤ b) c) :
    specEncodes u (specBits (2 * u) c) c = true := by
  induction c with
  | nil => exact absurd rfl hne
  | cons x rest ih =>
    cases rest with
    | nil => simp [specBits, specEncodes]
    | cons y rest2 =>
      have hxy : x ≤ y := (List.chain'_cons.mp hinc).1
      have htail := ih (by simp) (List.chain'_cons.mp hinc).2
      simp only [specBits, List.tail_cons, List.zipWith_cons_cons] at htail ⊢
      simp only [specEncodes, Bool.and_eq_true, decide_eq_true_eq, beq_iff_eq]
      exact ⟨⟨hxy, trivial⟩, htail⟩

/-- The reference bitstream has one bit per consecutive pair of crossings. -/
theorem specBits_length (threshold : Nat) (c : List Nat) :
    (specBits threshold c).length = c.length - 1 := by
  simp [specBits]

/-- The `i`-th reference bit compares the gap between crossings `i` and `i + 1`
with the threshold. -/
theorem specBits_getElem? (threshold : Nat) (zc : List Nat) (i : Nat) (hi : i + 1 < zc.length) :
    (specBits threshold zc)[i]?
      = some (decide (zc.getD (i + 1) 0 - zc.getD i 0 < threshold)) := by
  have h0 : zc[i]? = some zc[i] := List.getElem?_eq_getElem (by omega)
  have h1 : zc[i + 1]? = some zc[i + 1] := List.getElem?_eq_getElem hi
  have ht : (List.tail zc)[i]? = some zc[i + 1] := by
    rw [List.getElem?_tail, h1]
  simp [specBits, List.getElem?_zipWith, h0, ht, List.getD_eq_getElem?_getD, h1]

/-- C13: for every strictly increasing zero-crossing list `c` of length `n ≥ 2`
(entries in the range of `unsigned int`) and every threshold `2 * unitSamples`,
bit recovery returns a bitstream of length `n - 1` whose `i`-th bit is true
exactly when `c[i+1] - c[i] < 2 * unitSamples`, in crossing order. -/
theorem bitRecovery_eq_reference (c : List Nat) (unitSamples : Nat)
    (hlen : 2 ≤ c.length)
    (hinc : List.Pairwise (fun a b => a < b) c)
    (hrange : ∀ x ∈ c, x < UINT_MOD) :
    ∃ bits, bitRecovery c (2 * unitSamples) [] = Except.ok bits ∧
      bits.length = c.length - 1 ∧
      ∀ i, i + 1 < c.length →
        bits[i]? = some (decide (c.getD (i + 1) 0 - c.getD i 0 < 2 * unitSamples)) := by
  have hne : c ≠ [] := by
    intro h
    rw [h] at hlen
    simp at hlen
  have hchain : List.Chain' (fun a b => a ≤ b) c :=
    List.Chain'.imp (fun _ _ h => Nat.le_of_lt h) (List.Pairwise.chain' hinc)
  refine ⟨specBits (2 * unitSamples) c, ?_, specBits_length _ c, specBits_getElem? _ c⟩
  exact bitRecovery_encodes unitSamples _ c (specEncodes_specBits unitSamples c hne hchain) hrange

/-- Witness for C13: crossings `0, 14, 42, 56` at `unitSamples = 14`. -/
theorem bitRecovery_eq_reference_witness :
    ∃ bits, bitRecovery [0, 14, 42, 56] (2 * 14) [] = Except.ok bits ∧
      bits.length = [0, 14, 42, 56].length - 1 ∧
      ∀ i, i + 1 < [0, 14, 42, 56].length →
        bits[i]? = some (decide ([0, 14, 42, 56].getD (i + 1) 0 - [0, 14, 42, 56].getD i 0
          < 2 * 14)) :=
  bitRecovery_eq_reference [0, 14, 42, 56] 14 (by decide) (by decide) (by decide)

/-! ## Zero-crossing detection against its reference -/

/-- Inside the buffer the reference condition is the condition of the loop. -/
theorem specCrossingAt_eq (s : List Sample) (i : Nat) (hi : i + 1 < s.length) :
    specCrossingAt s i = isZeroCrossing s[i] s[i + 1] := by
  have h0 : s[i]? = some s[i] := List.getElem?_eq_getElem (by omega)
  have h1 : s[i + 1]? = some s[i + 1] := List.getElem?_eq_getElem hi
  simp [specCrossingAt, isZeroCrossing, h0, h1]

/-- The zero-crossing loop from index `i` appends the reference crossings among
the indices `i .. n - 2`. -/
theorem zeroCrossingLoop_eq_filter (s : List Sample) (hne : 1 ≤ s.length)
    (hsize : s.length ≤ UINT_MOD) (fuel i : Nat) (acc : List Nat)
    (hi : i ≤ s.length - 1) (hfuel : s.length - 1 - i < fuel) :
    zeroCrossingLoop s fuel i acc
      = Except.ok (acc ++ (List.range' i (s.length - 1 - i)).filter (specCrossingAt s)) := by
  have hpred : sizePred s.length = s.length - 1 := by
    unfold sizePred
    rw [if_neg (by omega)]
  induction fuel generalizing i acc with
  | zero => omega
  | succ fuel ih =>
    rw [zeroCrossingLoop, hpred]
    by_cases hlt : i < s.length - 1
    · rw [if_pos hlt]
      have h0 : s[i]? = some s[i] := List.getElem?_eq_getElem (by omega)
      have h1 : s[i + 1]? = some s[i + 1] := List.getElem?_eq_getElem (by omega)
      have hcond := specCrossingAt_eq s i (by omega)
      have hmod : i % UINT_MOD = i := Nat.mod_eq_of_lt (by omega)
      have hrange : List.range' i (s.length - 1 - i)
          = i :: List.range' (i + 1) (s.length - 1 - (i + 1)) := by
        have hk : s.length - 1 - i = (s.length - 1 - (i + 1)) + 1 := by omega
        rw [hk, List.range'_succ]
      rw [h0, h1, hmod, hrange, List.filter_cons, hcond]
      simp only []
      by_cases hc : isZeroCrossing s[i] s[i + 1] = true
      · rw [if_pos hc, if_pos hc, ih (i + 1) _ (by omega) (by omega)]
        simp
      · rw [if_neg hc, if_neg hc, ih (i + 1) _ (by omega) (by omega)]
    · rw [if_neg hlt]
      have hz : s.length - 1 - i = 0 := by omega
      rw [hz]
      simp

/-- C14: for every sample buffer `s` of length `n ≥ 2` (at most `2^32` samples, so
that every index fits the `unsigned int` it is stored in), the crossing list is
exactly the list of indices `i` in `0 .. n - 2`, in increasing order, at which
`s[i] > 0` and `s[i+1] ≤ 0`, or `s[i] < 0` and `s[i+1] ≥ 0`, or `s[i] = 0` and
`s[i+1] ≠ 0`; the list is strictly increasing and every entry is at most
`n - 2`. -/
theorem zeroCrossingScan_eq_reference (s : List Sample)
    (hlen : 2 ≤ s.length) (hsize : s.length ≤ UINT_MOD) :
    zeroCrossingScan s = Except.ok (specCrossings s) ∧
    (∀ i, i ∈ specCrossings s ↔ (i + 1 < s.length ∧ specCrossingAt s i = true)) ∧
    List.Pairwise (fun a b => a < b) (specCrossings s) ∧
    ∀ x ∈ specCrossings s, x ≤ s.length - 2 := by
  have hmem : ∀ i, i ∈ specCrossings s ↔ (i + 1 < s.length ∧ specCrossingAt s i = true) := by
    intro i
    simp only [specCrossings, List.mem_filter, List.mem_range]
    constructor
    · rintro ⟨h1, h2⟩
      exact ⟨by omega, h2⟩
    · rintro ⟨h1, h2⟩
      exact ⟨by omega, h2⟩
  refine ⟨?_, hmem, ?_, ?_⟩
  · have h := zeroCrossingLoop_eq_filter s (by omega) hsize (s.length + 1) 0 [] (by omega)
      (by omega)
    rw [zeroCrossingScan, h]
    simp [specCrossings, List.range_eq_range']
  · exact List.Pairwise.sublist (List.filter_sublist _) (List.pairwise_lt_range _)
  · intro x hx
    have := (hmem x).mp hx
    omega

/-- Witness for C14: the buffer `1, -1, -1, 0, 2` has crossings at `0`, `2`, `3`. -/
theorem zeroCrossingScan_eq_reference_witness :
    zeroCrossingScan
        [Sample.num 1, Sample.num (-1), Sample.num (-1), Sample.num 0, Sample.num 2]
      = Except.ok [0, 2, 3] :=
  (zeroCrossingScan_eq_reference
    [Sample.num 1, Sample.num (-1), Sample.num (-1), Sample.num 0, Sample.num 2]
    (by decide) (by decide)).1.trans (by decide)

/-! ## The byte framer against its reference -/

/-- A list of eleven bits, written out. -/
theorem eleven_bits (w : List Bool) (h : w.length = 11) :
    ∃ b0 b1 b2 b3 b4 b5 b6 b7 b8 b9 b10 : Bool,
      w = [b0, b1, b2, b3, b4, b5, b6, b7, b8, b9, b10] := by
  cases w with
  | nil => simp at h
  | cons b0 w0 =>
    cases w0 with
    | nil => simp at h
    | cons b1 w1 =>
      cases w1 with
      | nil => simp at h
      | cons b2 w2 =>
        cases w2 with
        | nil => simp at h
        | cons b3 w3 =>
          cases w3 with
          | nil => simp at h
          | cons b4 w4 =>
            cases w4 with
            | nil => simp at h
            | cons b5 w5 =>
              cases w5 with
              | nil => simp at h
              | cons b6 w6 =>
                cases w6 with
                | nil => simp at h
                | cons b7 w7 =>
                  cases w7 with
                  | nil => simp at h
                  | cons b8 w8 =>
                    cases w8 with
                    | nil => simp at h
                    | cons b9 w9 =>
                      cases w9 with
                      | nil => simp at h
                      | cons b10 w10 =>
                        cases w10 with
                        | nil => exact ⟨b0, b1, b2, b3, b4, b5, b6, b7, b8, b9, b10, rfl⟩
                        | cons x rest => simp at h
/-- The packed data bits of a window are the sum of `bit[k] << (k - 1)`, checked
on the eight data bits. -/
theorem packByte_eq_specFrameByte_data :
    ∀ b1 b2 b3 b4 b5 b6 b7 b8 : Bool,
      packByte [false, b1, b2, b3, b4, b5, b6, b7, b8, true, true] 0
        = specFrameByte [false, b1, b2, b3, b4, b5, b6, b7, b8, true, true] := by
  set_option maxRecDepth 100000 in decide

/-- The packed data bits of a window are the sum of `bit[k] << (k - 1)`. -/
theorem packByte_eq_specFrameByte (b0 b1 b2 b3 b4 b5 b6 b7 b8 b9 b10 : Bool) :
    packByte [b0, b1, b2, b3, b4, b5, b6, b7, b8, b9, b10] 0
      = specFrameByte [b0, b1, b2, b3, b4, b5, b6, b7, b8, b9, b10] :=
  packByte_eq_specFrameByte_data b1 b2 b3 b4 b5 b6 b7 b8

/-- The end-of-byte test of the code is the validity condition of the reference. -/
theorem isEndOfByte_eq_specFrameValid (w : List Bool) :
    _isEndOfByte w = specFrameValid w := by
  unfold _isEndOfByte specFrameValid BYTE_SIZE_PACKED
  cases w.getD 0 false <;> cases w.getD (11 - 2) false <;> cases w.getD (11 - 1) false <;> rfl

/-- The eleven iterations of the byte framer over any window push the packed data
bits when the window is valid, nothing otherwise, and leave the scratch
variables reset. -/
theorem frameStep_window (b0 b1 b2 b3 b4 b5 b6 b7 b8 b9 b10 : Bool) (out : List Nat) :
    [b0, b1, b2, b3, b4, b5, b6, b7, b8, b9, b10].foldl frameStep
        { currentByteEncoding := List.replicate BYTE_SIZE_PACKED false, currentByte := 0,
          i := 0, _bytestream := out }
      = { currentByteEncoding := List.replicate BYTE_SIZE_PACKED false, currentByte := 0,
          i := 0,
          _bytestream :=
            if _isEndOfByte [b0, b1, b2, b3, b4, b5, b6, b7, b8, b9, b10] then
              out ++ [packByte [b0, b1, b2, b3, b4, b5, b6, b7, b8, b9, b10] 0]
            else out } := by
  cases b0 <;> cases b9 <;> cases b10 <;>
    simp [frameStep, _isEndOfByte, BYTE_SIZE_PACKED, List.replicate]

/-- Fewer than eleven bits after a reset complete no frame: the bytestream stays
as it is. -/
theorem frameStep_short (l : List Bool) (st : FrameState) (h : st.i + l.length < 11) :
    (l.foldl frameStep st)._bytestream = st._bytestream := by
  induction l generalizing st with
  | nil => rfl
  | cons b rest ih =>
    simp only [List.length_cons] at h
    have hmod : ¬ (st.i + 1) % BYTE_SIZE_PACKED = 0 := by
      unfold BYTE_SIZE_PACKED
      omega
    have hstep : frameStep st b
        = { st with currentByteEncoding := st.currentByteEncoding.set st.i b, i := st.i + 1 } := by
      simp [frameStep, hmod]
    rw [List.foldl_cons, hstep, ih _ (by simp; omega)]

/-- The first window of a bitstream of at least eleven bits is its first eleven
bits, and the other windows are the windows of the rest. -/
theorem specWindows_cons (bits : List Bool) (h : 11 ≤ bits.length) :
    specWindows bits = bits.take 11 :: specWindows (bits.drop 11) := by
  have hdiv : bits.length / 11 = (bits.length - 11) / 11 + 1 := by omega
  unfold specWindows
  rw [hdiv, List.range_succ_eq_map, List.map_cons, List.map_map, List.length_drop]
  congr 1
  apply List.map_congr_left
  intro j _
  simp only [Function.comp, List.drop_drop]
  congr 2
  omega

/-- Fewer than eleven bits hold no window. -/
theorem specWindows_short (bits : List Bool) (h : bits.length < 11) : specWindows bits = [] := by
  have hdiv : bits.length / 11 = 0 := by omega
  simp [specWindows, hdiv]

/-- The byte framer appends the bytes of the reference framer. -/
theorem frameBytes_eq_specFramer (n : Nat) :
    ∀ (bits : List Bool) (out : List Nat), bits.length / 11 = n →
      frameBytes bits out = out ++ specFramer bits := by
  induction n with
  | zero =>
    intro bits out hn
    have hshort : bits.length < 11 := by omega
    have h := frameStep_short bits
      { currentByteEncoding := List.replicate BYTE_SIZE_PACKED false, currentByte := 0, i := 0,
        _bytestream := out } (by simpa using hshort)
    simp only [] at h
    rw [frameBytes, h, specFramer, specWindows_short bits hshort]
    simp
  | succ n ih =>
    intro bits out hn
    have hlong : 11 ≤ bits.length := by omega
    have hw : (bits.take 11).length = 11 := by
      rw [List.length_take]
      omega
    obtain ⟨b0, b1, b2, b3, b4, b5, b6, b7, b8, b9, b10, hbits⟩ := eleven_bits _ hw
    have hrest : (bits.drop 11).length / 11 = n := by
      rw [List.length_drop]
      omega
    have hsplit : bits = [b0, b1, b2, b3, b4, b5, b6, b7, b8, b9, b10] ++ bits.drop 11 := by
      rw [← hbits, List.take_append_drop]
    have hih := ih (bits.drop 11)
      (if _isEndOfByte [b0, b1, b2, b3, b4, b5, b6, b7, b8, b9, b10] then
        out ++ [packByte [b0, b1, b2, b3, b4, b5, b6, b7, b8, b9, b10] 0]
      else out) hrest
    rw [specFramer, specWindows_cons bits hlong, hbits]
    unfold frameBytes at hih ⊢
    rw [hsplit, List.foldl_append, frameStep_window]
    have hdrop : List.drop 11 ([b0, b1, b2, b3, b4, b5, b6, b7, b8, b9, b10] ++ bits.drop 11)
        = bits.drop 11 := by
      rw [← hsplit]
    rw [hdrop, hih, specFramer, List.filter_cons, ← isEndOfByte_eq_specFrameValid]
    cases hv : _isEndOfByte [b0, b1, b2, b3, b4, b5, b6, b7, b8, b9, b10]
    · simp
    · simp [packByte_eq_specFrameByte]

/-- C12: for every bitstream, `_extractByteStream` appends to the bytestream exactly
the bytes of the reference framer: the bitstream is cut into consecutive
non-overlapping 11-bit windows (a trailing remainder of fewer than 11 bits is
dropped), the windows with bit 0 false, bit 9 true and bit 10 true are kept in
order, and each kept window gives the byte `sum over k in 1..8 of
bit[k] << (k - 1)`; so at most `length / 11` bytes are appended, and from an
empty bytestream the result is the reference bytestream itself. -/
theorem extractByteStream_eq_reference (s : DataExtractor) :
    (_extractByteStream s)._bytestream = s._bytestream ++ specFramer s._bitstream ∧
    (s._bytestream = [] → (_extractByteStream s)._bytestream = specFramer s._bitstream) ∧
    (specFramer s._bitstream).length ≤ s._bitstream.length / 11 := by
  have h : (_extractByteStream s)._bytestream = s._bytestream ++ specFramer s._bitstream :=
    frameBytes_eq_specFramer _ s._bitstream s._bytestream rfl
  refine ⟨h, ?_, ?_⟩
  · intro hnil
    rw [h, hnil, List.nil_append]
  · simp only [specFramer, List.length_map]
    calc (List.filter specFrameValid (specWindows s._bitstream)).length
        ≤ (specWindows s._bitstream).length := List.length_filter_le _ _
      _ = s._bitstream.length / 11 := by simp [specWindows]

/-- Witness for C12: two frames (the first valid, the second with a wrong start
bit) and a remainder of three bits give the one byte `0x41`. -/
theorem extractByteStream_eq_reference_witness :
    (_extractByteStream
      { init "" with
        _bitstream := [false, true, false, false, false, false, false, true, false, true, true,
          true, true, false, false, false, false, false, true, false, true, true,
          false, true, true] })._bytestream = [0x41] :=
  ((extractByteStream_eq_reference
    { init "" with
      _bitstream := [false, true, false, false, false, false, false, true, false, true, true,
        true, true, false, false, false, false, false, true, false, true, true,
        false, true, true] }).2.1 rfl).trans (by decide)

/-! ## Missing markers and index safety in `_constructMessageList` -/

/-- Without any adjacent pair whose XOR is the start marker constant the forward
scan runs to the last index of the bytestream. -/
theorem startLoop_not_found (bs : List Nat) (hne : 1 ≤ bs.length)
    (hnone : ∀ j a b, bs[j]? = some a → bs[j + 1]? = some b → a ^^^ b ≠ START_STREAM_BYTE)
    (fuel s : Nat) (hs : s ≤ bs.length - 1) (hfuel : bs.length - 1 - s < fuel) :
    startLoop bs fuel s = Except.ok (bs.length - 1) := by
  have hpred : sizePred bs.length = bs.length - 1 := by
    unfold sizePred
    rw [if_neg (by omega)]
  induction fuel generalizing s with
  | zero => omega
  | succ fuel ih =>
    rw [startLoop, hpred]
    by_cases hlt : s < bs.length - 1
    · have h0 : bs[s]? = some bs[s] := List.getElem?_eq_getElem (by omega)
      have h1 : bs[s + 1]? = some bs[s + 1] := List.getElem?_eq_getElem (by omega)
      have hx := hnone s _ _ h0 h1
      rw [if_pos hlt, h0, h1]
      simp only [hx, if_false]
      exact ih (s + 1) (by omega) (by omega)
    · rw [if_neg hlt]
      have : s = bs.length - 1 := by omega
      rw [this]

/-- The backward scan never ends more than one position below `startIndex`. -/
theorem endLoop_lower (bs : List Nat) (startIndex fuel e : Nat)
    (hstart : 1 ≤ startIndex) (he : startIndex ≤ e + 1) (r : Nat)
    (hr : endLoop bs startIndex fuel e = Except.ok r) : startIndex ≤ r + 1 := by
  induction fuel generalizing e with
  | zero => simp [endLoop] at hr
  | succ fuel ih =>
    rw [endLoop] at hr
    by_cases hle : startIndex ≤ e
    · rw [if_pos hle] at hr
      have hpred : sizePred e = e - 1 := by
        unfold sizePred
        rw [if_neg (by omega)]
      rw [hpred] at hr
      cases hread : bs[e]? with
      | none =>
        rw [hread] at hr
        exact Except.noConfusion hr
      | some b =>
        rw [hread] at hr
        simp only [] at hr
        by_cases hz : b = END_STREAM_BYTE
        · rw [if_pos hz] at hr
          have : r = e - 1 := by
            injection hr with h
            exact h.symm
          omega
        · rw [if_neg hz] at hr
          exact ih (e - 1) (by omega) hr
    · rw [if_neg hle] at hr
      have : r = e := by
        injection hr with h
        exact h.symm
      omega

/-- Without a zero byte at or after `startIndex` the backward scan ends one
position below `startIndex`. -/
theorem endLoop_not_found (bs : List Nat) (startIndex : Nat) (hstart : 1 ≤ startIndex)
    (hnozero : ∀ j, startIndex ≤ j → bs[j]? ≠ some END_STREAM_BYTE)
    (fuel e : Nat) (he : e < bs.length) (hse : startIndex ≤ e + 1) (hfuel : e < fuel) :
    endLoop bs startIndex fuel e = Except.ok (startIndex - 1) := by
  induction fuel generalizing e with
  | zero => omega
  | succ fuel ih =>
    rw [endLoop]
    by_cases hle : startIndex ≤ e
    · have h0 : bs[e]? = some bs[e] := List.getElem?_eq_getElem he
      have hpred : sizePred e = e - 1 := by
        unfold sizePred
        rw [if_neg (by omega)]
      have hx : ¬ bs[e] = END_STREAM_BYTE := by
        intro hcon
        apply hnozero e hle
        rw [h0, hcon]
      rw [if_pos hle, h0, hpred]
      simp only [hx, if_false]
      exact ih (e - 1) (by omega) (by omega) (by omega)
    · rw [if_neg hle]
      have : e = startIndex - 1 := by omega
      rw [this]

/-- The extraction loop with the end index below the cursor returns the message
list unchanged. -/
theorem messageLoop_empty_range (bs : List Nat) (e fuel i byteIndex : Nat) (cur : Message)
    (ml : List Message) (he : e < i) :
    messageLoop bs e (fuel + 1) i byteIndex cur ml = Except.ok ml := by
  rw [messageLoop, if_neg (by omega)]

/-- The length guard of `_constructMessageList` lets a bytestream of at least 64
bytes through. -/
theorem constructMessages_guard (bs : List Nat) (hlen : 64 ≤ bs.length) :
    (bs.isEmpty || decide (bs.length + 2 ≤ START_STREAM_BYTE)) = false := by
  have h65 : START_STREAM_BYTE = 65 := by decide
  have hne : bs ≠ [] := by
    intro h
    rw [h] at hlen
    simp at hlen
  rw [h65]
  simp [hne]
  omega

/-- The body of `_constructMessageList`, for a bytestream of at least 64 bytes,
given what the two scans return. -/
theorem constructMessages_of_scans (bs : List Nat) (ml : List Message) (hlen : 64 ≤ bs.length)
    (k e : Nat) (hk : startLoop bs (bs.length + 1) 0 = Except.ok k)
    (he : endLoop bs k (bs.length + 1) (bs.length - 1) = Except.ok e) :
    constructMessages bs ml
      = messageLoop bs e (bs.length + 1) k 0
          { data := List.replicate MESSAGE_SIZE 0, checksum := 0 } ml := by
  have hpred : sizePred bs.length = bs.length - 1 := by
    unfold sizePred
    rw [if_neg (by omega)]
  unfold constructMessages
  rw [constructMessages_guard bs hlen]
  simp only [Bool.false_eq_true, if_false]
  rw [hk]
  simp only []
  rw [hpred, he]

/-- C17: for every bytestream of length at least 64 in which no adjacent pair of
bytes XORs to 65, the forward scan leaves `startIndex` at the last index of the
bytestream (not at 0), and `_constructMessageList` raises no error and leaves
the message list as it was (empty when it was empty). -/
theorem constructMessageList_no_start_marker (s : DataExtractor)
    (hlen : 64 ≤ s._bytestream.length)
    (hnone : List.Chain' (fun a b => a ^^^ b ≠ 65) s._bytestream) :
    startLoop s._bytestream (s._bytestream.length + 1) 0
      = Except.ok (s._bytestream.length - 1) ∧
    _constructMessageList s = Except.ok s ∧
    (s._messageList = [] → _constructMessageList s = Except.ok { s with _messageList := [] }) := by
  have h65 : START_STREAM_BYTE = 65 := by decide
  have hstart : startLoop s._bytestream (s._bytestream.length + 1) 0
      = Except.ok (s._bytestream.length - 1) :=
    startLoop_not_found s._bytestream (by omega)
      (fun j a b ha hb => by
        rw [h65]
        exact chain_getElem? _ hnone j a b ha hb)
      (s._bytestream.length + 1) 0 (by omega) (by omega)
  obtain ⟨e, he, _, _⟩ := endLoop_ok s._bytestream (s._bytestream.length - 1)
    (s._bytestream.length + 1) (s._bytestream.length - 1) (by omega) (by omega) (by omega)
  have hlow := endLoop_lower s._bytestream (s._bytestream.length - 1)
    (s._bytestream.length + 1) (s._bytestream.length - 1) (by omega) (by omega) e he
  have hup : e + 2 ≤ s._bytestream.length := by
    -- the scan inspects the last byte only: it ends at `length - 2` either way
    have hread : s._bytestream[s._bytestream.length - 1]?
        = some s._bytestream[s._bytestream.length - 1] :=
      List.getElem?_eq_getElem (by omega)
    have hpred : sizePred (s._bytestream.length - 1) = s._bytestream.length - 2 := by
      unfold sizePred
      rw [if_neg (by omega)]
      omega
    obtain ⟨f, hf⟩ : ∃ f, s._bytestream.length + 1 = f + 2 := ⟨s._bytestream.length - 1, by omega⟩
    rw [hf, endLoop, if_pos (Nat.le_refl _), hread, hpred] at he
    simp only [] at he
    by_cases hz : s._bytestream[s._bytestream.length - 1] = END_STREAM_BYTE
    · rw [if_pos hz] at he
      injection he with h
      omega
    · rw [if_neg hz, endLoop, if_neg (by omega)] at he
      injection he with h
      omega
  have hres : constructMessages s._bytestream s._messageList = Except.ok s._messageList := by
    rw [constructMessages_of_scans _ _ hlen _ _ hstart he]
    exact messageLoop_empty_range _ _ _ _ _ _ _ (by omega)
  have hsame : _constructMessageList s = Except.ok s := by
    unfold _constructMessageList
    rw [hres]
  refine ⟨hstart, hsame, ?_⟩
  intro hml
  rw [hsame, ← hml]

/-- Witness for C17: sixty-four bytes of value 7. -/
theorem constructMessageList_no_start_marker_witness :
    _constructMessageList { init "" with _bytestream := List.replicate 64 7 }
      = Except.ok { init "" with _bytestream := List.replicate 64 7 } :=
  (constructMessageList_no_start_marker
    { init "" with _bytestream := List.replicate 64 7 } (by decide) (by simp [List.replicate])).2.1

/-- C18: for every bytestream of length at least 64 in which a start marker is
found (the first adjacent pair XOR-ing to 65 sits at index `t`, so that
`startIndex = t + 2`) and no byte at an index `≥ startIndex` is `0x00`, the
backward scan ends at `startIndex - 1` and `_constructMessageList` raises no
error and leaves the message list as it was (empty when it was empty), however
many complete 31-byte records follow the marker. -/
theorem constructMessageList_no_end_marker (s : DataExtractor) (t a b : Nat)
    (hlen : 64 ≤ s._bytestream.length)
    (hfirst : ∀ j x y, j < t → s._bytestream[j]? = some x → s._bytestream[j + 1]? = some y →
      x ^^^ y ≠ 65)
    (ha : s._bytestream[t]? = some a) (hb : s._bytestream[t + 1]? = some b)
    (hab : a ^^^ b = 65)
    (hnozero : ∀ j, t + 2 ≤ j → s._bytestream[j]? ≠ some 0x00) :
    startLoop s._bytestream (s._bytestream.length + 1) 0 = Except.ok (t + 2) ∧
    endLoop s._bytestream (t + 2) (s._bytestream.length + 1) (s._bytestream.length - 1)
      = Except.ok (t + 1) ∧
    _constructMessageList s = Except.ok s ∧
    (s._messageList = [] → _constructMessageList s = Except.ok { s with _messageList := [] }) := by
  have h65 : START_STREAM_BYTE = 65 := by decide
  have htlen : t + 1 < s._bytestream.length := by
    by_contra hcon
    rw [List.getElem?_eq_none (by omega)] at hb
    exact Option.noConfusion hb
  have hstart : startLoop s._bytestream (s._bytestream.length + 1) 0 = Except.ok (t + 2) :=
    startLoop_found s._bytestream t (fun j x y hj hx hy => by
        rw [h65]
        exact hfirst j x y hj hx hy)
      a b ha hb (by rw [h65]; exact hab) (s._bytestream.length + 1) 0 (Nat.zero_le _) (by omega)
  have hend : endLoop s._bytestream (t + 2) (s._bytestream.length + 1)
      (s._bytestream.length - 1) = Except.ok (t + 2 - 1) :=
    endLoop_not_found s._bytestream (t + 2) (by omega) hnozero (s._bytestream.length + 1)
      (s._bytestream.length - 1) (by omega) (by omega) (by omega)
  have hres : constructMessages s._bytestream s._messageList = Except.ok s._messageList := by
    rw [constructMessages_of_scans _ _ hlen _ _ hstart hend]
    exact messageLoop_empty_range _ _ _ _ _ _ _ (by omega)
  have hsame : _constructMessageList s = Except.ok s := by
    unfold _constructMessageList
    rw [hres]
  refine ⟨hstart, hend, hsame, ?_⟩
  intro hml
  rw [hsame, ← hml]

/-- Witness for C18: the marker followed by two complete records of bytes 1 and no
zero byte anywhere. -/
theorem constructMessageList_no_end_marker_witness :
    _constructMessageList { init "" with _bytestream := [0x42, 0x03] ++ List.replicate 62 1 }
      = Except.ok { init "" with _bytestream := [0x42, 0x03] ++ List.replicate 62 1 } :=
  (constructMessageList_no_end_marker
    { init "" with _bytestream := [0x42, 0x03] ++ List.replicate 62 1 } 0 0x42 0x03
    (by decide) (fun j x y hj => absurd hj (Nat.not_lt_zero j)) (by decide) (by decide)
    (by decide)
    (fun j hj hcon => by
      have hmem : (0 : Nat) ∈ [0x42, 0x03] ++ List.replicate 62 1 := List.getElem?_mem hcon
      simp [List.mem_replicate] at hmem)).2.2.1

/-- C19: for every bytestream of length at least 64 the forward scan returns a
`startIndex` between 2 and the length, the backward scan returns an `endIndex`
that is inside the bytestream and at least `startIndex - 1` (its `size_t`
decrements never pass below zero), and the extraction loop returns a message
list; since every read outside the bytestream is reported as `OutOfBounds` and
an exhausted step budget as `OutOfFuel`, all reads `bytestream[startIndex]`,
`bytestream[startIndex + 1]`, `bytestream[endIndex]`, `bytestream[i]` and
`bytestream[i + 1]` are at indices below the length and every loop ends. -/
theorem constructMessageList_index_safe (s : DataExtractor)
    (hlen : 64 ≤ s._bytestream.length) :
    ∃ startIndex endIndex messageList,
      startLoop s._bytestream (s._bytestream.length + 1) 0 = Except.ok startIndex ∧
      2 ≤ startIndex ∧ startIndex ≤ s._bytestream.length ∧
      endLoop s._bytestream startIndex (s._bytestream.length + 1)
          (sizePred s._bytestream.length) = Except.ok endIndex ∧
      endIndex < s._bytestream.length ∧ startIndex ≤ endIndex + 1 ∧
      messageLoop s._bytestream endIndex (s._bytestream.length + 1) startIndex 0
          { data := List.replicate MESSAGE_SIZE 0, checksum := 0 } s._messageList
        = Except.ok messageList ∧
      _constructMessageList s = Except.ok { s with _messageList := messageList } := by
  have hpred : sizePred s._bytestream.length = s._bytestream.length - 1 := by
    unfold sizePred
    rw [if_neg (by omega)]
  obtain ⟨k, hk, hk2, hk3⟩ := startLoop_ok s._bytestream (s._bytestream.length + 1) 0
    (by omega) (by omega)
  obtain ⟨e, he, he2, he3⟩ := endLoop_ok s._bytestream k (s._bytestream.length + 1)
    (s._bytestream.length - 1) (by omega) (by omega) (by omega)
  have hlow := endLoop_lower s._bytestream k (s._bytestream.length + 1)
    (s._bytestream.length - 1) (by omega) (by omega) e he
  obtain ⟨out, hout⟩ := messageLoop_ok s._bytestream e (s._bytestream.length + 1) k 0
    { data := List.replicate MESSAGE_SIZE 0, checksum := 0 } s._messageList (by omega)
    (by omega)
  refine ⟨k, e, out, hk, by omega, hk3, by rw [hpred]; exact he, he3, hlow, hout, ?_⟩
  unfold _constructMessageList
  rw [constructMessages_of_scans _ _ hlen _ _ hk he, hout]

/-- Witness for C19: sixty-four bytes of value 7. -/
theorem constructMessageList_index_safe_witness :
    ∃ startIndex endIndex messageList,
      startLoop (List.replicate 64 7) 65 0 = Except.ok startIndex ∧
      2 ≤ startIndex ∧ startIndex ≤ 64 ∧
      endLoop (List.replicate 64 7) startIndex 65 (sizePred 64) = Except.ok endIndex ∧
      endIndex < 64 ∧ startIndex ≤ endIndex + 1 ∧
      messageLoop (List.replicate 64 7) endIndex 65 startIndex 0
          { data := List.replicate MESSAGE_SIZE 0, checksum := 0 } []
        = Except.ok messageList ∧
      _constructMessageList { init "" with _bytestream := List.replicate 64 7 }
        = Except.ok
          { ({ init "" with _bytestream := List.replicate 64 7 } : DataExtractor) with
            _messageList := messageList } :=
  constructMessageList_index_safe { init "" with _bytestream := List.replicate 64 7 }
    (by decide)

/-! ## Several records between the markers -/

/-- The two scans on a bytestream `P ++ [0x42, 0x03] ++ body ++ [0x00] ++ S`: the
forward scan returns the index after the marker, the backward scan the index
before the terminating zero. -/
theorem scans_marked (P body S : List Nat)
    (hP : List.Chain' (fun a b => a ^^^ b ≠ 65) (P ++ [0x42]))
    (hS : ∀ b ∈ S, b ≠ 0x00) :
    startLoop (P ++ [0x42, 0x03] ++ body ++ [0x00] ++ S)
        ((P ++ [0x42, 0x03] ++ body ++ [0x00] ++ S).length + 1) 0
      = Except.ok (P.length + 2) ∧
    endLoop (P ++ [0x42, 0x03] ++ body ++ [0x00] ++ S) (P.length + 2)
        ((P ++ [0x42, 0x03] ++ body ++ [0x00] ++ S).length + 1)
        ((P ++ [0x42, 0x03] ++ body ++ [0x00] ++ S).length - 1)
      = Except.ok (P.length + 1 + body.length) := by
  have h65 : START_STREAM_BYTE = 65 := by decide
  have hn : (P ++ [0x42, 0x03] ++ body ++ [0x00] ++ S).length
      = P.length + 3 + body.length + S.length := by
    simp
    omega
  have hA : P ++ [0x42, 0x03] ++ body ++ [0x00] ++ S
      = (P ++ [0x42]) ++ ([0x03] ++ body ++ [0x00] ++ S) := by simp
  have hB : P ++ [0x42, 0x03] ++ body ++ [0x00] ++ S
      = (P ++ [0x42, 0x03] ++ body) ++ (0x00 :: S) := by simp
  generalize hbs : P ++ [0x42, 0x03] ++ body ++ [0x00] ++ S = bs at *
  constructor
  · have hlow : ∀ j, j < P.length + 1 → bs[j]? = (P ++ [0x42])[j]? := by
      intro j hj
      rw [hA, List.getElem?_append_left (by simpa using hj)]
    apply startLoop_found bs P.length _ 0x42 0x03 _ _ _ (bs.length + 1) 0 (Nat.zero_le _)
      (by omega)
    · intro j a b hj ha hb
      rw [hlow j (by omega)] at ha
      rw [hlow (j + 1) (by omega)] at hb
      rw [h65]
      exact chain_getElem? _ hP j a b ha hb
    · rw [hlow P.length (by omega)]
      simp
    · rw [hA, List.getElem?_append_right (by simp)]
      simp
    · decide
  · have hpre : (P ++ [0x42, 0x03] ++ body).length = P.length + 2 + body.length := by
      simp
      omega
    have hz : bs[P.length + 2 + body.length]? = some END_STREAM_BYTE := by
      rw [hB, List.getElem?_append_right (by omega), hpre]
      simp [END_STREAM_BYTE]
    have h := endLoop_found bs (P.length + 2) (P.length + 2 + body.length) hz (by omega)
      (by omega) (bs.length + 1) (bs.length - 1)
      (by
        intro j b hj1 hj2 hjb
        rw [hB, List.getElem?_append_right (by omega), hpre] at hjb
        have hpos : j - (P.length + 2 + body.length)
            = (j - (P.length + 3 + body.length)) + 1 := by omega
        rw [hpos, List.getElem?_cons_succ] at hjb
        exact hS b (List.getElem?_mem hjb))
      (by omega) (by omega) (by omega)
    have hidx : P.length + 2 + body.length - 1 = P.length + 1 + body.length := by omega
    rw [hidx] at h
    exact h

/-- The extraction loop over a run of records with right checksums, the cursor at
the first record and the end index at the last checksum byte: every record
becomes one message, in order. -/
theorem messageLoop_records (ms : List Message) :
    ∀ (pre post : List Nat) (e fuel : Nat) (cur : Message) (ml : List Message),
      (∀ m ∈ ms, m.data.length = 30 ∧ _isValidMessage m = true) →
      cur.data.length = 30 →
      e + 1 = pre.length + (specRecordBytes ms).length →
      (specRecordBytes ms).length < fuel →
      messageLoop (pre ++ specRecordBytes ms ++ post) e fuel pre.length 0 cur ml
        = Except.ok (ml ++ ms) := by
  induction ms with
  | nil =>
    intro pre post e fuel cur ml _ _ he hfuel
    simp only [specRecordBytes, List.length_nil, Nat.add_zero] at he hfuel
    obtain ⟨f, rfl⟩ : ∃ f, fuel = f + 1 := ⟨fuel - 1, by omega⟩
    rw [messageLoop_empty_range _ _ _ _ _ _ _ (by omega)]
    simp
  | cons m rest ih =>
    intro pre post e fuel cur ml hms hcur he hfuel
    have hm := hms m (by simp)
    have hrest : ∀ x ∈ rest, x.data.length = 30 ∧ _isValidMessage x = true :=
      fun x hx => hms x (by simp [hx])
    have hlen : (specRecordBytes (m :: rest)).length = 31 + (specRecordBytes rest).length := by
      simp only [specRecordBytes, List.length_append, List.length_cons, List.length_nil, hm.1]
    rw [hlen] at he hfuel
    obtain ⟨f, rfl⟩ : ∃ f, fuel = f + 30 := ⟨fuel - 30, by omega⟩
    have hshape : pre ++ specRecordBytes (m :: rest) ++ post
        = pre ++ m.data ++ m.checksum :: (specRecordBytes rest ++ post) := by
      simp [specRecordBytes]
    have hrec := messageLoop_record pre m.data (specRecordBytes rest ++ post) m.checksum e f
      cur ml hm.1 hcur (by omega)
    have hvalid : _isValidMessage { data := m.data, checksum := m.checksum } = true := hm.2
    rw [hvalid] at hrec
    simp only [if_true] at hrec
    rw [hshape, hrec]
    have hshape2 : pre ++ m.data ++ m.checksum :: (specRecordBytes rest ++ post)
        = (pre ++ m.data ++ [m.checksum]) ++ specRecordBytes rest ++ post := by simp
    have hpre : pre.length + 31 = (pre ++ m.data ++ [m.checksum]).length := by
      simp [hm.1]
    rw [hshape2, hpre]
    rw [ih (pre ++ m.data ++ [m.checksum]) post e f { data := m.data, checksum := m.checksum }
      (ml ++ [({ data := m.data, checksum := m.checksum } : Message)]) hrest hm.1
      (by rw [← hpre]; omega) (by omega)]
    cases m
    simp

/-- C16: for every run of `k` records `(D1, c1), ..., (Dk, ck)` (every `k ≥ 1`, and
also `k = 0`) with `|Di| = 30` and `ci` the mod-256 sum of `Di`, in a bytestream
`P ++ [0x42, 0x03] ++ D1 ++ [c1] ++ ... ++ Dk ++ [ck] ++ [0x00] ++ S` of length at
least 64 with no adjacent pair of `P ++ [0x42]` XOR-ing to 65 and no zero byte
in `S`, `_constructMessageList` (started with an empty message list) returns
exactly these `k` messages in this order, whatever the data bytes are (zero
bytes and pairs XOR-ing to 65 included). -/
theorem constructMessageList_records_in_order (s : DataExtractor) (P S : List Nat)
    (ms : List Message)
    (hbs : s._bytestream = P ++ [0x42, 0x03] ++ specRecordBytes ms ++ [0x00] ++ S)
    (hml : s._messageList = [])
    (hms : ∀ m ∈ ms, m.data.length = 30 ∧ m.checksum = m.data.sum % 256)
    (hlen : 64 ≤ (P ++ [0x42, 0x03] ++ specRecordBytes ms ++ [0x00] ++ S).length)
    (hP : List.Chain' (fun a b => a ^^^ b ≠ 65) (P ++ [0x42]))
    (hS : ∀ b ∈ S, b ≠ 0x00) :
    _constructMessageList s = Except.ok { s with _messageList := ms } := by
  have hvalid : ∀ m ∈ ms, m.data.length = 30 ∧ _isValidMessage m = true := by
    intro m hm
    refine ⟨(hms m hm).1, ?_⟩
    unfold _isValidMessage
    rw [checksum_eq_sum_mod, beq_iff_eq]
    exact (hms m hm).2.symm
  obtain ⟨hstart, hend⟩ := scans_marked P (specRecordBytes ms) S hP hS
  have hres : constructMessages (P ++ [0x42, 0x03] ++ specRecordBytes ms ++ [0x00] ++ S) []
      = Except.ok ms := by
    rw [constructMessages_of_scans _ _ hlen _ _ hstart hend]
    have hshape : P ++ [0x42, 0x03] ++ specRecordBytes ms ++ [0x00] ++ S
        = (P ++ [0x42, 0x03]) ++ specRecordBytes ms ++ (0x00 :: S) := by simp
    have hpre : P.length + 2 = (P ++ [0x42, 0x03]).length := by simp
    rw [hshape, hpre]
    rw [messageLoop_records ms (P ++ [0x42, 0x03]) (0x00 :: S) _ _ _ [] hvalid
      (by simp [MESSAGE_SIZE]) (by simp; omega) (by simp; omega)]
    simp
  unfold _constructMessageList
  rw [hbs, hml, hres]

/-- Witness for C16: two records, the first with the data bytes `0x42, 0x03, 0x00`
followed by 27 bytes of value 5, the second with the data bytes `0, ..., 29`. -/
theorem constructMessageList_records_in_order_witness :
    _constructMessageList
        { init "" with
          _bytestream := [7] ++ [0x42, 0x03]
            ++ specRecordBytes
              [{ data := [0x42, 0x03, 0x00] ++ List.replicate 27 5, checksum := 204 },
               { data := List.range 30, checksum := 179 }]
            ++ [0x00] ++ [9] }
      = Except.ok
        { init "" with
          _bytestream := [7] ++ [0x42, 0x03]
            ++ specRecordBytes
              [{ data := [0x42, 0x03, 0x00] ++ List.replicate 27 5, checksum := 204 },
               { data := List.range 30, checksum := 179 }]
            ++ [0x00] ++ [9],
          _messageList :=
            [{ data := [0x42, 0x03, 0x00] ++ List.replicate 27 5, checksum := 204 },
             { data := List.range 30, checksum := 179 }] } :=
  constructMessageList_records_in_order
    { init "" with
      _bytestream := [7] ++ [0x42, 0x03]
        ++ specRecordBytes
          [{ data := [0x42, 0x03, 0x00] ++ List.replicate 27 5, checksum := 204 },
           { data := List.range 30, checksum := 179 }]
        ++ [0x00] ++ [9] }
    [7] [9]
    [{ data := [0x42, 0x03, 0x00] ++ List.replicate 27 5, checksum := 204 },
     { data := List.range 30, checksum := 179 }]
    rfl rfl (by decide) (by decide) (by simp) (by decide)

/-! ## Zero-crossing detection looks at signs only -/

/-- A rounded magnitude is not negative. -/
theorem f32Round_value_nonneg (p q : Nat) :
    (0 : ℚ) ≤ ((f32Round p q).num : ℚ) / ((f32Round p q).den : ℚ) :=
  div_nonneg (Nat.cast_nonneg _) (Nat.cast_nonneg _)

/-- Zero is rounded to zero. -/
theorem f32OfRat_zero : f32OfRat 0 = 0 := by
  simp [f32OfRat, f32Round]

/-- Rounding keeps a value that is not negative from becoming negative. -/
theorem f32OfRat_nonneg (v : ℚ) (hv : 0 ≤ v) : 0 ≤ f32OfRat v := by
  unfold f32OfRat
  rw [if_neg (not_lt.mpr hv)]
  exact f32Round_value_nonneg _ _

/-- Rounding keeps a negative value from becoming positive. -/
theorem f32OfRat_nonpos (v : ℚ) (hv : v < 0) : f32OfRat v ≤ 0 := by
  unfold f32OfRat
  rw [if_pos hv]
  exact neg_nonpos.mpr (f32Round_value_nonneg _ _)

/-- A sample whose scaled value is zero exactly when the sample is zero keeps the
result of every comparison with zero under scaling by a positive factor. -/
theorem specScale_signs (a : ℚ) (ha : 0 < a) (x : Sample)
    (hx : (specScale a x).eq0 = x.eq0) :
    (specScale a x).gt0 = x.gt0 ∧ (specScale a x).lt0 = x.lt0 ∧
    (specScale a x).ge0 = x.ge0 ∧ (specScale a x).le0 = x.le0 ∧
    (specScale a x).ne0 = x.ne0 := by
  cases x with
  | nan => simp [specScale, Sample.gt0, Sample.lt0, Sample.ge0, Sample.le0, Sample.ne0]
  | num v =>
    simp only [specScale, Sample.eq0, decide_eq_decide] at hx
    simp only [specScale, Sample.gt0, Sample.lt0, Sample.ge0, Sample.le0, Sample.ne0,
      decide_eq_decide]
    rcases lt_trichotomy v 0 with hv | hv | hv
    · have hw : a * v < 0 := mul_neg_of_pos_of_neg ha hv
      have h1 := f32OfRat_nonpos (a * v) hw
      have h2 : f32OfRat (a * v) ≠ 0 := fun h => hv.ne (hx.mp h)
      have h3 : f32OfRat (a * v) < 0 := lt_of_le_of_ne h1 h2
      refine ⟨?_, ?_, ?_, ?_, ?_⟩
      · exact ⟨fun h => absurd h (not_lt.mpr h1), fun h => absurd h (not_lt.mpr hv.le)⟩
      · exact ⟨fun _ => hv, fun _ => h3⟩
      · exact ⟨fun h => absurd h (not_le.mpr h3), fun h => absurd h (not_le.mpr hv)⟩
      · exact ⟨fun _ => hv.le, fun _ => h1⟩
      · exact ⟨fun _ => hv.ne, fun _ => h2⟩
    · rw [hv, mul_zero, f32OfRat_zero]
      simp
    · have hw : 0 < a * v := mul_pos ha hv
      have h1 := f32OfRat_nonneg (a * v) hw.le
      have h2 : f32OfRat (a * v) ≠ 0 := fun h => hv.ne' (hx.mp h)
      have h3 : 0 < f32OfRat (a * v) := lt_of_le_of_ne h1 (Ne.symm h2)
      refine ⟨?_, ?_, ?_, ?_, ?_⟩
      · exact ⟨fun _ => hv, fun _ => h3⟩
      · exact ⟨fun h => absurd h (not_lt.mpr h1), fun h => absurd h (not_lt.mpr hv.le)⟩
      · exact ⟨fun _ => hv.le, fun _ => h1⟩
      · exact ⟨fun h => absurd h (not_le.mpr h3), fun h => absurd h (not_le.mpr hv)⟩
      · exact ⟨fun _ => hv.ne', fun _ => h2⟩

/-- Scaling two samples by a positive factor does not change the crossing
condition when neither of them is scaled to zero from a nonzero value. -/
theorem isZeroCrossing_specScale (a : ℚ) (ha : 0 < a) (x y : Sample)
    (hx : (specScale a x).eq0 = x.eq0) (hy : (specScale a y).eq0 = y.eq0) :
    isZeroCrossing (specScale a x) (specScale a y) = isZeroCrossing x y := by
  obtain ⟨x1, x2, -, -, -⟩ := specScale_signs a ha x hx
  obtain ⟨-, -, y3, y4, y5⟩ := specScale_signs a ha y hy
  unfold isZeroCrossing
  rw [x1, x2, hx, y3, y4, y5]

/-- Inverting the polarity of both samples does not change the crossing
condition. -/
theorem isZeroCrossing_specNegate (x y : Sample) :
    isZeroCrossing (specNegate x) (specNegate y) = isZeroCrossing x y := by
  cases x with
  | nan => cases y <;> simp [isZeroCrossing, specNegate, Sample.gt0, Sample.lt0, Sample.eq0]
  | num v =>
    cases y with
    | nan =>
      simp [isZeroCrossing, specNegate, Sample.gt0, Sample.lt0, Sample.eq0, Sample.le0,
        Sample.ge0, Sample.ne0]
    | num w =>
      simp only [isZeroCrossing, specNegate, Sample.gt0, Sample.lt0, Sample.eq0, Sample.le0,
        Sample.ge0, Sample.ne0, Left.neg_pos_iff, Left.neg_neg_iff, Left.neg_nonpos_iff,
        Left.nonneg_neg_iff, neg_eq_zero, ne_eq]
      rw [Bool.or_comm (decide (v < 0) && decide (0 ≤ w))]

/-- The zero-crossing loop gives the same result on two buffers related by a map
of the samples that keeps the crossing condition on the samples of the buffer. -/
theorem zeroCrossingLoop_map (f : Sample → Sample) (s : List Sample)
    (hf : ∀ x ∈ s, ∀ y ∈ s, isZeroCrossing (f x) (f y) = isZeroCrossing x y)
    (fuel i : Nat) (acc : List Nat) :
    zeroCrossingLoop (s.map f) fuel i acc = zeroCrossingLoop s fuel i acc := by
  induction fuel generalizing i acc with
  | zero => rfl
  | succ fuel ih =>
    rw [zeroCrossingLoop, zeroCrossingLoop, List.length_map, List.getElem?_map,
      List.getElem?_map]
    cases hx : s[i]? with
    | none => rfl
    | some x =>
      cases hy : s[i + 1]? with
      | none => rfl
      | some y =>
        simp only [Option.map_some', hf x (List.getElem?_mem hx) y (List.getElem?_mem hy),
          ih]

/-- C20 (as the code behaves): for every sample buffer `s` (of length at least 2,
and shorter ones as well) and every positive factor `a` such that no nonzero
sample of `s` becomes zero in the scaled buffer (the binary32 product does not
underflow to zero), the zero-crossing scan of `s`, of the scaled buffer `a * s`
and of the inverted buffer `-s` give the same result, and so
`_generateBitStream` recovers the same bitstream from the three recordings. -/
theorem zeroCrossing_sign_invariant (s : List Sample) (a : ℚ) (ha : 0 < a)
    (hnz : ∀ x ∈ s, (specScale a x).eq0 = x.eq0) :
    zeroCrossingScan (s.map (specScale a)) = zeroCrossingScan s ∧
    zeroCrossingScan (s.map specNegate) = zeroCrossingScan s ∧
    ∀ (loaded : Bool) (sampleRate : Nat) (others : List (List Sample)) (st : DataExtractor),
      _generateBitStream
          { loaded := loaded, sampleRate := sampleRate,
            samples := s.map (specScale a) :: others } st
        = _generateBitStream
          { loaded := loaded, sampleRate := sampleRate, samples := s :: others } st ∧
      _generateBitStream
          { loaded := loaded, sampleRate := sampleRate,
            samples := s.map specNegate :: others } st
        = _generateBitStream
          { loaded := loaded, sampleRate := sampleRate, samples := s :: others } st := by
  have hscale : zeroCrossingScan (s.map (specScale a)) = zeroCrossingScan s := by
    unfold zeroCrossingScan
    rw [List.length_map]
    exact zeroCrossingLoop_map _ s
      (fun x hx y hy => isZeroCrossing_specScale a ha x y (hnz x hx) (hnz y hy)) _ _ _
  have hneg : zeroCrossingScan (s.map specNegate) = zeroCrossingScan s := by
    unfold zeroCrossingScan
    rw [List.length_map]
    exact zeroCrossingLoop_map _ s (fun x _ y _ => isZeroCrossing_specNegate x y) _ _ _
  refine ⟨hscale, hneg, ?_⟩
  intro loaded sampleRate others st
  constructor
  · simp only [_generateBitStream, AudioData.getNumChannels, List.length_cons,
      List.getElem?_cons_zero, hscale]
  · simp only [_generateBitStream, AudioData.getNumChannels, List.length_cons,
      List.getElem?_cons_zero, hneg]

/-- Witness for C20: the buffer `1, -1, 0, 3` scaled by `1 / 3`, a factor whose
products are rounded. -/
theorem zeroCrossing_sign_invariant_witness :
    zeroCrossingScan
        ([Sample.num 1, Sample.num (-1), Sample.num 0, Sample.num 3].map (specScale (1 / 3)))
      = Except.ok [0, 1, 2] :=
  (zeroCrossing_sign_invariant [Sample.num 1, Sample.num (-1), Sample.num 0, Sample.num 3]
    (1 / 3) (by norm_num) (by decide!)).1.trans (by decide)

/-- C20 as stated fails: the samples `2^-100, -2^-100, 1` and the factor
`2^-100` are binary32 values; the products of the first two samples underflow to
zero, so the scaled buffer has the single crossing `1` where the buffer has the
crossings `0, 1`, and the recovered bitstreams differ. -/
theorem zeroCrossing_scaling_underflow :
    (0 : ℚ) < 1 / 1267650600228229401496703205376 ∧
    f32OfRat (1 / 1267650600228229401496703205376) = 1 / 1267650600228229401496703205376 ∧
    zeroCrossingScan
        [Sample.num (1 / 1267650600228229401496703205376),
         Sample.num (-(1 / 1267650600228229401496703205376)), Sample.num 1]
      = Except.ok [0, 1] ∧
    zeroCrossingScan
        ([Sample.num (1 / 1267650600228229401496703205376),
          Sample.num (-(1 / 1267650600228229401496703205376)), Sample.num 1].map
          (specScale (1 / 1267650600228229401496703205376)))
      = Except.ok [1] ∧
    _generateBitStream
        { loaded := true, sampleRate := 44100,
          samples :=
            [[Sample.num (1 / 1267650600228229401496703205376),
              Sample.num (-(1 / 1267650600228229401496703205376)), Sample.num 1].map
              (specScale (1 / 1267650600228229401496703205376))] } (init "")
      ≠ _generateBitStream
        { loaded := true, sampleRate := 44100,
          samples :=
            [[Sample.num (1 / 1267650600228229401496703205376),
              Sample.num (-(1 / 1267650600228229401496703205376)), Sample.num 1]] }
        (init "") := by
  decide!

/-! ## The binary32 evaluation of the unit interval -/

/-- Rounding to nearest stays between the floor and the floor plus one. -/
theorem roundHalfEven_bounds (n d : Nat) :
    n / d ≤ roundHalfEven n d ∧ roundHalfEven n d ≤ n / d + 1 := by
  unfold roundHalfEven
  simp only []
  split
  · omega
  · split
    · omega
    · split <;> omega

/-- Rounding to nearest is monotone in the value `n / d`. -/
theorem roundHalfEven_mono (n d n2 d2 : Nat) (hd : 0 < d) (hd2 : 0 < d2)
    (h : n * d2 ≤ n2 * d) : roundHalfEven n d ≤ roundHalfEven n2 d2 := by
  have hf : n / d ≤ n2 / d2 := by
    rw [Nat.le_div_iff_mul_le hd2]
    have h1 : n / d * d ≤ n := Nat.div_mul_le_self n d
    have h2 : n / d * d2 * d ≤ n2 * d := by
      calc n / d * d2 * d = n / d * d * d2 := by ring
        _ ≤ n * d2 := Nat.mul_le_mul_right d2 h1
        _ ≤ n2 * d := h
    exact Nat.le_of_mul_le_mul_right h2 hd
  have hb := roundHalfEven_bounds n d
  have hb2 := roundHalfEven_bounds n2 d2
  by_cases hlt : n / d < n2 / d2
  · omega
  · have heq : n / d = n2 / d2 := by omega
    have hn : d * (n / d) + n % d = n := Nat.div_add_mod n d
    have hn2 : d2 * (n2 / d2) + n2 % d2 = n2 := Nat.div_add_mod n2 d2
    have hr : n % d < d := Nat.mod_lt n hd
    have hr2 : n2 % d2 < d2 := Nat.mod_lt n2 hd2
    have hrr : n % d * d2 ≤ n2 % d2 * d := by
      have e1 : n * d2 = d * d2 * (n / d) + n % d * d2 := by
        conv_lhs => rw [← hn]
        ring
      have e2 : n2 * d = d * d2 * (n / d) + n2 % d2 * d := by
        conv_lhs => rw [← hn2, ← heq]
        ring
      rw [e1, e2] at h
      omega
    unfold roundHalfEven
    simp only []
    rw [← heq]
    generalize n % d = r at *
    generalize n2 % d2 = r2 at *
    generalize n / d = f at *
    by_cases c1 : 2 * r < d
    · rw [if_pos c1]
      split
      · omega
      · split
        · omega
        · split <;> omega
    · rw [if_neg c1]
      have c1' : ¬ 2 * r2 < d2 := by
        intro hcon
        have h3 : 2 * r2 * d < d2 * d := Nat.mul_lt_mul_of_pos_right hcon hd
        have h4 : d * d2 ≤ 2 * r * d2 := Nat.mul_le_mul_right d2 (by omega)
        have h5 : 2 * r * d2 ≤ 2 * r2 * d := by
          calc 2 * r * d2 = 2 * (r * d2) := by ring
            _ ≤ 2 * (r2 * d) := Nat.mul_le_mul_left 2 hrr
            _ = 2 * r2 * d := by ring
        have h6 : d2 * d = d * d2 := Nat.mul_comm _ _
        omega
      rw [if_neg c1']
      by_cases c2 : d < 2 * r
      · rw [if_pos c2]
        have c2' : d2 < 2 * r2 := by
          by_contra hcon
          have h3 : 2 * r2 * d ≤ d2 * d := Nat.mul_le_mul_right d (by omega)
          have h4 : d * d2 < 2 * r * d2 := Nat.mul_lt_mul_of_pos_right c2 hd2
          have h5 : 2 * r * d2 ≤ 2 * r2 * d := by
            calc 2 * r * d2 = 2 * (r * d2) := by ring
              _ ≤ 2 * (r2 * d) := Nat.mul_le_mul_left 2 hrr
              _ = 2 * r2 * d := by ring
          have h6 : d2 * d = d * d2 := Nat.mul_comm _ _
          omega
        rw [if_pos c2']
      · rw [if_neg c2]
        split_ifs <;> omega

/-- Rounding an integer gives that integer. -/
theorem roundHalfEven_one (m : Nat) : roundHalfEven m 1 = m := by
  unfold roundHalfEven
  simp [Nat.mod_one]

/-- A value at most the integer `m` rounds to at most `m`. -/
theorem roundHalfEven_le (n d m : Nat) (hd : 0 < d) (h : n ≤ m * d) : roundHalfEven n d ≤ m := by
  have := roundHalfEven_mono n d m 1 hd Nat.one_pos (by omega)
  rw [roundHalfEven_one] at this
  exact this

/-- A value at least the integer `m` rounds to at least `m`. -/
theorem roundHalfEven_ge (n d m : Nat) (hd : 0 < d) (h : m * d ≤ n) : m ≤ roundHalfEven n d := by
  have := roundHalfEven_mono m 1 n d Nat.one_pos hd (by omega)
  rw [roundHalfEven_one] at this
  exact this

/-- The halving loop returns the position of the highest set bit. -/
theorem log2Loop_spec (fuel n : Nat) (hn : 1 ≤ n) (hfuel : n ≤ fuel) :
    2 ^ log2Loop fuel n ≤ n ∧ n < 2 ^ (log2Loop fuel n + 1) := by
  induction fuel generalizing n with
  | zero => omega
  | succ fuel ih =>
    rw [log2Loop]
    by_cases h2 : 2 ≤ n
    · rw [if_pos h2]
      have := ih (n / 2) (by omega) (by omega)
      rw [Nat.pow_succ, Nat.pow_succ]
      rw [Nat.pow_succ] at this
      omega
    · rw [if_neg h2]
      have : n = 1 := by omega
      rw [this]
      decide

/-- The value `log2Floor n` is the floor of the binary logarithm of `n ≥ 1`. -/
theorem log2Floor_spec (n : Nat) (hn : 1 ≤ n) :
    2 ^ log2Floor n ≤ n ∧ n < 2 ^ (log2Floor n + 1) :=
  log2Loop_spec n n hn (Nat.le_refl n)

/-- The shape of a rounded binary32 value: `p / q` is scaled by `2^B / 2^A` into the
range of a 24-bit significand, rounded to nearest, and scaled back.  The scaled
value is below `2^24`; it is at least `2^23` except in the subnormal range,
where the scale is fixed at `2^149`. -/
theorem f32Round_form (p q : Nat) (hp : 0 < p) (hq : 0 < q) :
    ∃ A B : Nat,
      f32Round p q = ⟨roundHalfEven (p * 2 ^ B) (q * 2 ^ A) * 2 ^ A, 2 ^ B⟩ ∧
      p * 2 ^ B < 2 ^ 24 * (q * 2 ^ A) ∧
      B ≤ A + 149 ∧
      (B < A + 149 → 2 ^ 23 * (q * 2 ^ A) ≤ p * 2 ^ B) := by
  unfold f32Round
  rw [if_neg (by omega)]
  by_cases hqp : q ≤ p
  · rw [if_pos hqp]
    simp only []
    have hu : 1 ≤ p / q := Nat.div_pos hqp hq
    obtain ⟨hlo, hhi⟩ := log2Floor_spec (p / q) hu
    rw [Nat.le_div_iff_mul_le hq] at hlo
    rw [Nat.div_lt_iff_lt_mul hq] at hhi
    generalize log2Floor (p / q) = e at *
    by_cases he : 23 ≤ e
    · rw [if_pos he]
      refine ⟨e - 23, 0, by simp, ?_, by omega, ?_⟩
      · have hpow : 2 ^ 24 * 2 ^ (e - 23) = 2 ^ (e + 1) := by
          rw [← Nat.pow_add]
          congr 1
          omega
        calc p * 2 ^ 0 = p := by simp
          _ < 2 ^ (e + 1) * q := hhi
          _ = 2 ^ 24 * (q * 2 ^ (e - 23)) := by rw [← hpow]; ring
      · intro _
        have hpow : 2 ^ 23 * 2 ^ (e - 23) = 2 ^ e := by
          rw [← Nat.pow_add]
          congr 1
          omega
        calc 2 ^ 23 * (q * 2 ^ (e - 23)) = 2 ^ e * q := by rw [← hpow]; ring
          _ ≤ p := hlo
          _ = p * 2 ^ 0 := by simp
    · rw [if_neg he]
      refine ⟨0, 23 - e, by simp, ?_, by omega, ?_⟩
      · have hpow : 2 ^ (e + 1) * 2 ^ (23 - e) = 2 ^ 24 := by
          rw [← Nat.pow_add]
          congr 1
          omega
        calc p * 2 ^ (23 - e) < 2 ^ (e + 1) * q * 2 ^ (23 - e) :=
              Nat.mul_lt_mul_of_pos_right hhi (Nat.pow_pos (by decide))
          _ = 2 ^ 24 * (q * 2 ^ 0) := by rw [← hpow]; ring
      · intro _
        have hpow : 2 ^ e * 2 ^ (23 - e) = 2 ^ 23 := by
          rw [← Nat.pow_add]
          congr 1
          omega
        calc 2 ^ 23 * (q * 2 ^ 0) = 2 ^ e * q * 2 ^ (23 - e) := by rw [← hpow]; ring
          _ ≤ p * 2 ^ (23 - e) := Nat.mul_le_mul_right _ hlo
  · rw [if_neg hqp]
    simp only []
    have hv : 1 ≤ q / p := Nat.div_pos (by omega) hp
    obtain ⟨hlo, hhi⟩ := log2Floor_spec (q / p) hv
    rw [Nat.le_div_iff_mul_le hp] at hlo
    rw [Nat.div_lt_iff_lt_mul hp, Nat.pow_succ] at hhi
    generalize log2Floor (q / p) = t0 at *
    have hmin : min (if p * 2 ^ t0 = q then t0 else t0 + 1) 126
        ≤ (if p * 2 ^ t0 = q then t0 else t0 + 1) := Nat.min_le_left _ _
    have hmin2 : min (if p * 2 ^ t0 = q then t0 else t0 + 1) 126 ≤ 126 := Nat.min_le_right _ _
    have hmin3 : min (if p * 2 ^ t0 = q then t0 else t0 + 1) 126 < 126 →
        min (if p * 2 ^ t0 = q then t0 else t0 + 1) 126
          = (if p * 2 ^ t0 = q then t0 else t0 + 1) := by
      intro h
      omega
    have hup1 : p * 2 ^ (if p * 2 ^ t0 = q then t0 else t0 + 1) < 2 * q := by
      split
      · omega
      · rename_i hne
        rw [Nat.pow_succ]
        have : p * 2 ^ t0 ≤ q := by
          rw [Nat.mul_comm]
          exact hlo
        have hlt : p * 2 ^ t0 < q := Nat.lt_of_le_of_ne this hne
        calc p * (2 ^ t0 * 2) = 2 * (p * 2 ^ t0) := by ring
          _ < 2 * q := by omega
    have hlow1 : q ≤ p * 2 ^ (if p * 2 ^ t0 = q then t0 else t0 + 1) := by
      split
      · omega
      · rw [Nat.pow_succ]
        calc q ≤ 2 ^ t0 * 2 * p := Nat.le_of_lt hhi
          _ = p * (2 ^ t0 * 2) := by ring
    generalize (if p * 2 ^ t0 = q then t0 else t0 + 1) = t1 at *
    generalize min t1 126 = t at *
    refine ⟨0, 23 + t, by simp, ?_, by omega, ?_⟩
    · have hle : p * 2 ^ t ≤ p * 2 ^ t1 :=
        Nat.mul_le_mul_left p (Nat.pow_le_pow_right (by decide) hmin)
      calc p * 2 ^ (23 + t) = 2 ^ 23 * (p * 2 ^ t) := by rw [Nat.pow_add]; ring
        _ < 2 ^ 23 * (2 * q) := Nat.mul_lt_mul_of_pos_left (by omega) (by decide)
        _ = 2 ^ 24 * (q * 2 ^ 0) := by ring
    · intro hB
      have ht : t = t1 := hmin3 (by omega)
      rw [ht]
      calc 2 ^ 23 * (q * 2 ^ 0) = 2 ^ 23 * q := by simp
        _ ≤ 2 ^ 23 * (p * 2 ^ t1) := Nat.mul_le_mul_left _ hlow1
        _ = p * 2 ^ (23 + t1) := by rw [Nat.pow_add]; ring

/-- Integer division is monotone in the value of the fraction. -/
theorem div_le_div_of_cross (n d n2 d2 : Nat) (hd : 0 < d) (hd2 : 0 < d2)
    (h : n * d2 ≤ n2 * d) : n / d ≤ n2 / d2 := by
  rw [Nat.le_div_iff_mul_le hd2]
  have h1 : n / d * d ≤ n := Nat.div_mul_le_self n d
  have h2 : n / d * d2 * d ≤ n2 * d := by
    calc n / d * d2 * d = n / d * d * d2 := by ring
      _ ≤ n * d2 := Nat.mul_le_mul_right d2 h1
      _ ≤ n2 * d := h
  exact Nat.le_of_mul_le_mul_right h2 hd

/-- The denominator of a rounded value is positive. -/
theorem f32Round_den_pos (p q : Nat) : 0 < (f32Round p q).den := by
  unfold f32Round
  simp only []
  split_ifs <;> simp

/-- Rounding to binary32 is monotone: a smaller fraction rounds to a value that is
not larger. -/
theorem f32Round_mono (p q p2 q2 : Nat) (hq : 0 < q) (hq2 : 0 < q2)
    (h : p * q2 ≤ p2 * q) :
    (f32Round p q).num * (f32Round p2 q2).den ≤ (f32Round p2 q2).num * (f32Round p q).den := by
  by_cases hp : p = 0
  · have : f32Round p q = ⟨0, 1⟩ := by
      unfold f32Round
      rw [if_pos hp]
    rw [this]
    simp
  have hp0 : 0 < p := Nat.pos_of_ne_zero hp
  have hp2 : 0 < p2 := by
    by_contra hcon
    have hz : p2 = 0 := by omega
    rw [hz] at h
    have : 0 < p * q2 := Nat.mul_pos hp0 hq2
    omega
  obtain ⟨A, B, hF, hup, hB, hlow⟩ := f32Round_form p q hp0 hq
  obtain ⟨A2, B2, hF2, hup2, hB2, hlow2⟩ := f32Round_form p2 q2 hp2 hq2
  rw [hF, hF2]
  simp only []
  have ha : 0 < 2 ^ A := Nat.pow_pos (by decide)
  have hb : 0 < 2 ^ B := Nat.pow_pos (by decide)
  have ha2 : 0 < 2 ^ A2 := Nat.pow_pos (by decide)
  have hb2 : 0 < 2 ^ B2 := Nat.pow_pos (by decide)
  have hm : roundHalfEven (p * 2 ^ B) (q * 2 ^ A) ≤ 2 ^ 24 :=
    roundHalfEven_le _ _ _ (Nat.mul_pos hq ha) (Nat.le_of_lt hup)
  have hm2 : roundHalfEven (p2 * 2 ^ B2) (q2 * 2 ^ A2) ≤ 2 ^ 24 :=
    roundHalfEven_le _ _ _ (Nat.mul_pos hq2 ha2) (Nat.le_of_lt hup2)
  rcases Nat.lt_trichotomy (A + B2) (A2 + B) with hlt | heq | hgt
  · -- the first value lies in a lower binade
    have hscale : 2 * (2 ^ A * 2 ^ B2) ≤ 2 ^ A2 * 2 ^ B := by
      rw [← Nat.pow_add, ← Nat.pow_add, ← Nat.pow_succ']
      exact Nat.pow_le_pow_right (by decide) (by omega)
    have hm2low : 2 ^ 23 ≤ roundHalfEven (p2 * 2 ^ B2) (q2 * 2 ^ A2) :=
      roundHalfEven_ge _ _ _ (Nat.mul_pos hq2 ha2) (hlow2 (by omega))
    calc roundHalfEven (p * 2 ^ B) (q * 2 ^ A) * 2 ^ A * 2 ^ B2
        = roundHalfEven (p * 2 ^ B) (q * 2 ^ A) * (2 ^ A * 2 ^ B2) := by ring
      _ ≤ 2 ^ 24 * (2 ^ A * 2 ^ B2) := Nat.mul_le_mul_right _ hm
      _ = 2 ^ 23 * (2 * (2 ^ A * 2 ^ B2)) := by ring
      _ ≤ 2 ^ 23 * (2 ^ A2 * 2 ^ B) := Nat.mul_le_mul_left _ hscale
      _ ≤ roundHalfEven (p2 * 2 ^ B2) (q2 * 2 ^ A2) * (2 ^ A2 * 2 ^ B) :=
          Nat.mul_le_mul_right _ hm2low
      _ = roundHalfEven (p2 * 2 ^ B2) (q2 * 2 ^ A2) * 2 ^ A2 * 2 ^ B := by ring
  · -- both values lie in the same binade
    have hscale : 2 ^ A * 2 ^ B2 = 2 ^ A2 * 2 ^ B := by
      rw [← Nat.pow_add, ← Nat.pow_add, heq]
    have hmono : roundHalfEven (p * 2 ^ B) (q * 2 ^ A)
        ≤ roundHalfEven (p2 * 2 ^ B2) (q2 * 2 ^ A2) := by
      apply roundHalfEven_mono _ _ _ _ (Nat.mul_pos hq ha) (Nat.mul_pos hq2 ha2)
      calc p * 2 ^ B * (q2 * 2 ^ A2) = p * q2 * (2 ^ A2 * 2 ^ B) := by ring
        _ ≤ p2 * q * (2 ^ A2 * 2 ^ B) := Nat.mul_le_mul_right _ h
        _ = p2 * q * (2 ^ A * 2 ^ B2) := by rw [hscale]
        _ = p2 * 2 ^ B2 * (q * 2 ^ A) := by ring
    calc roundHalfEven (p * 2 ^ B) (q * 2 ^ A) * 2 ^ A * 2 ^ B2
        = roundHalfEven (p * 2 ^ B) (q * 2 ^ A) * (2 ^ A * 2 ^ B2) := by ring
      _ ≤ roundHalfEven (p2 * 2 ^ B2) (q2 * 2 ^ A2) * (2 ^ A * 2 ^ B2) :=
          Nat.mul_le_mul_right _ hmono
      _ = roundHalfEven (p2 * 2 ^ B2) (q2 * 2 ^ A2) * 2 ^ A2 * 2 ^ B := by
          rw [hscale]
          ring
  · -- the first value cannot lie in a higher binade
    exfalso
    have hscale : 2 * (2 ^ A2 * 2 ^ B) ≤ 2 ^ A * 2 ^ B2 := by
      rw [← Nat.pow_add, ← Nat.pow_add, ← Nat.pow_succ']
      exact Nat.pow_le_pow_right (by decide) (by omega)
    have hl := hlow (by omega)
    have hqq : 0 < q * q2 := Nat.mul_pos hq hq2
    have hchain : 2 ^ 23 * (2 ^ A * 2 ^ B2) * (q * q2)
        < 2 ^ 23 * (2 * (2 ^ A2 * 2 ^ B)) * (q * q2) := by
      calc 2 ^ 23 * (2 ^ A * 2 ^ B2) * (q * q2)
          = 2 ^ 23 * (q * 2 ^ A) * (q2 * 2 ^ B2) := by ring
        _ ≤ p * 2 ^ B * (q2 * 2 ^ B2) := Nat.mul_le_mul_right _ hl
        _ = p * q2 * (2 ^ B * 2 ^ B2) := by ring
        _ ≤ p2 * q * (2 ^ B * 2 ^ B2) := Nat.mul_le_mul_right _ h
        _ = p2 * 2 ^ B2 * (q * 2 ^ B) := by ring
        _ < 2 ^ 24 * (q2 * 2 ^ A2) * (q * 2 ^ B) :=
            Nat.mul_lt_mul_of_pos_right hup2 (Nat.mul_pos hq hb)
        _ = 2 ^ 23 * (2 * (2 ^ A2 * 2 ^ B)) * (q * q2) := by ring
    have hle : 2 ^ 23 * (2 * (2 ^ A2 * 2 ^ B)) * (q * q2)
        ≤ 2 ^ 23 * (2 ^ A * 2 ^ B2) * (q * q2) :=
      Nat.mul_le_mul_right _ (Nat.mul_le_mul_left _ hscale)
    omega

/-- The binary32 product of `_generateBitStream` is monotone in the sample rate. -/
theorem unitProduct_mono (r r2 : Nat) (h : r ≤ r2) :
    (unitProduct r).num * (unitProduct r2).den ≤ (unitProduct r2).num * (unitProduct r).den := by
  unfold unitProduct SAMPLE_LENGTH_MICROSECONDS
  simp only []
  have h1 := f32Round_mono r 1 r2 1 Nat.one_pos Nat.one_pos (by omega)
  have d1 := f32Round_den_pos r 1
  have d1' := f32Round_den_pos r2 1
  generalize f32Round r 1 = x1 at *
  generalize f32Round r2 1 = y1 at *
  have h2 := f32Round_mono x1.num (x1.den * 1000) y1.num (y1.den * 1000) (by omega) (by omega)
    (by
      calc x1.num * (y1.den * 1000) = x1.num * y1.den * 1000 := by ring
        _ ≤ y1.num * x1.den * 1000 := Nat.mul_le_mul_right _ h1
        _ = y1.num * (x1.den * 1000) := by ring)
  have d2 := f32Round_den_pos x1.num (x1.den * 1000)
  have d2' := f32Round_den_pos y1.num (y1.den * 1000)
  generalize f32Round x1.num (x1.den * 1000) = x2 at *
  generalize f32Round y1.num (y1.den * 1000) = y2 at *
  have h3 := f32Round_mono x2.num (x2.den * 1000) y2.num (y2.den * 1000) (by omega) (by omega)
    (by
      calc x2.num * (y2.den * 1000) = x2.num * y2.den * 1000 := by ring
        _ ≤ y2.num * x2.den * 1000 := Nat.mul_le_mul_right _ h2
        _ = y2.num * (x2.den * 1000) := by ring)
  have d3 := f32Round_den_pos x2.num (x2.den * 1000)
  have d3' := f32Round_den_pos y2.num (y2.den * 1000)
  generalize f32Round x2.num (x2.den * 1000) = x3 at *
  generalize f32Round y2.num (y2.den * 1000) = y3 at *
  exact f32Round_mono (ONE_LENGTH * x3.num) x3.den (ONE_LENGTH * y3.num) y3.den d3 d3'
    (by
      calc ONE_LENGTH * x3.num * y3.den = ONE_LENGTH * (x3.num * y3.den) := by ring
        _ ≤ ONE_LENGTH * (y3.num * x3.den) := Nat.mul_le_mul_left _ h3
        _ = ONE_LENGTH * y3.num * x3.den := by ring)

/-- The integer part of the binary32 product is monotone in the sample rate. -/
theorem unitProduct_floor_mono (r r2 : Nat) (h : r ≤ r2) :
    (unitProduct r).num / (unitProduct r).den
      ≤ (unitProduct r2).num / (unitProduct r2).den :=
  div_le_div_of_cross _ _ _ _ (f32Round_den_pos _ _) (f32Round_den_pos _ _)
    (unitProduct_mono r r2 h)

/-- The unit interval is the integer part of the binary32 product, reduced to an
`unsigned int`. -/
theorem SINGLE_TIMEFRAME_eq (r : Nat) :
    SINGLE_TIMEFRAME r = (unitProduct r).num / (unitProduct r).den % UINT_MOD := rfl

/-- A conditional on `Nat.beq` is the conditional on the equality. -/
theorem cond_beq {α : Type} (a b : Nat) (x y : α) :
    cond (Nat.beq a b) x y = if a = b then x else y := by
  by_cases h : a = b
  · rw [if_pos h, h, Nat.beq_refl]; rfl
  · rw [if_neg h]
    have : Nat.beq a b = false := by
      cases hb : Nat.beq a b with
      | false => rfl
      | true => exact absurd (Nat.eq_of_beq_eq_true hb) h
    rw [this]; rfl

/-- A conditional on `Nat.ble` is the conditional on the order. -/
theorem cond_ble {α : Type} (a b : Nat) (x y : α) :
    cond (Nat.ble a b) x y = if a ≤ b then x else y := by
  by_cases h : a ≤ b
  · rw [if_pos h, Nat.ble_eq_true_of_le h]; rfl
  · rw [if_neg h]
    have : Nat.ble a b = false := by
      cases hb : Nat.ble a b with
      | false => rfl
      | true => exact absurd (Nat.le_of_ble_eq_true hb) h
    rw [this]; rfl

/-- The evaluation form of rounding agrees with `roundHalfEven`. -/
theorem roundHalfEvenEval_eq (n d : Nat) (hd : 0 < d) :
    roundHalfEvenEval n d = roundHalfEven n d := by
  show (2 * n + d) / (2 * d) - (1 - (2 * n + d) % (2 * d)) * ((2 * n + d) / (2 * d) % 2)
    = roundHalfEven n d
  unfold roundHalfEven
  simp only []
  have hn : d * (n / d) + n % d = n := Nat.div_add_mod n d
  have hr : n % d < d := Nat.mod_lt n hd
  generalize n / d = f at *
  generalize n % d = r at *
  have e1 : 2 * n + d = (2 * r + d) + (2 * d) * f := by rw [← hn]; ring
  rw [e1, Nat.add_mul_div_left _ _ (by omega : 0 < 2 * d), Nat.add_mul_mod_self_left]
  by_cases h1 : 2 * r < d
  · have hq : (2 * r + d) / (2 * d) = 0 := Nat.div_eq_of_lt (by omega)
    have hm : (2 * r + d) % (2 * d) = 2 * r + d := Nat.mod_eq_of_lt (by omega)
    have h0 : 1 - (2 * r + d) = 0 := by omega
    rw [hq, hm, h0, if_pos h1]
    omega
  · have hq : (2 * r + d) / (2 * d) = 1 :=
      Nat.div_eq_of_lt_le (by omega) (by omega)
    have hm : (2 * r + d) % (2 * d) = 2 * r - d := by
      rw [Nat.mod_eq_sub_mod (by omega), Nat.mod_eq_of_lt (by omega)]
      omega
    rw [hq, hm, if_neg h1]
    by_cases h2 : d < 2 * r
    · have h0 : 1 - (2 * r - d) = 0 := by omega
      rw [h0, if_pos h2]
      omega
    · have h0 : 1 - (2 * r - d) = 1 := by omega
      rw [h0, if_neg h2]
      split_ifs <;> omega

/-- The evaluation form of the binary logarithm agrees with `log2Floor`. -/
theorem log2Eval_eq (n : Nat) : log2Eval n = log2Floor n := by
  unfold log2Eval
  rw [cond_beq]
  split_ifs with h
  · generalize log2Guess n = g at h
    have h1 : n / 2 ^ g = 1 := by
      rw [← Nat.shiftRight_eq_div_pow]
      exact h
    have hpos : 0 < 2 ^ g := Nat.pow_pos (by decide)
    have hdm := Nat.div_add_mod n (2 ^ g)
    have hmod := Nat.mod_lt n hpos
    rw [h1] at hdm
    have hlo : 2 ^ g ≤ n := by omega
    have hhi : n < 2 ^ (g + 1) := by rw [Nat.pow_succ]; omega
    obtain ⟨a, b⟩ := log2Floor_spec n (by omega)
    by_contra hne
    rcases Nat.lt_or_gt_of_ne hne with hlt | hgt
    · have : 2 ^ (g + 1) ≤ 2 ^ log2Floor n := Nat.pow_le_pow_right (by decide) hlt
      omega
    · have : 2 ^ (log2Floor n + 1) ≤ 2 ^ g := Nat.pow_le_pow_right (by decide) hgt
      omega
  · rfl

/-- The primitive division is the division. -/
theorem prim_div (a b : Nat) : Nat.div a b = a / b := rfl

/-- The primitive remainder is the remainder. -/
theorem prim_mod (a b : Nat) : Nat.mod a b = a % b := rfl

/-- The evaluation form of the scale exponent agrees with the one of `f32Round`. -/
theorem tEval_eq (p q : Nat) :
    tEval p q
      = min (if p * 2 ^ log2Floor (q / p) = q then log2Floor (q / p)
          else log2Floor (q / p) + 1) 126 := by
  unfold tEval
  simp only [Nat.add_eq, Nat.mul_eq, Nat.sub_eq, Nat.pow_eq, prim_div, Nat.succ_eq_add_one,
    cond_beq, cond_ble, log2Eval_eq]
  rw [Nat.min_def]

/-- The evaluation form of the numerator agrees with `f32Round`. -/
theorem f32NumEval_eq (p q : Nat) (hq : 0 < q) : f32NumEval p q = (f32Round p q).num := by
  unfold f32NumEval f32Round
  simp only [Nat.add_eq, Nat.mul_eq, Nat.sub_eq, Nat.pow_eq, prim_div, Nat.succ_eq_add_one,
    cond_beq, cond_ble, log2Eval_eq, tEval_eq]
  have h2 : ∀ k : Nat, 0 < 2 ^ k := fun k => Nat.pow_pos (by decide)
  split_ifs
  · rfl
  · exact congrArg (· * _) (roundHalfEvenEval_eq _ _ (Nat.mul_pos hq (h2 _)))
  · exact roundHalfEvenEval_eq _ _ hq
  · exact roundHalfEvenEval_eq _ _ hq
  · exact roundHalfEvenEval_eq _ _ hq

/-- The evaluation form of the denominator agrees with `f32Round`. -/
theorem f32DenEval_eq (p q : Nat) : f32DenEval p q = (f32Round p q).den := by
  unfold f32DenEval f32Round
  simp only [Nat.add_eq, Nat.mul_eq, Nat.sub_eq, Nat.pow_eq, prim_div, Nat.succ_eq_add_one,
    cond_beq, cond_ble, log2Eval_eq, tEval_eq]
  split_ifs <;> rfl

/-- The evaluation form of the unit computation is the integer part of
`unitProduct`. -/
theorem unitFloorEval_eq (r : Nat) :
    unitFloorEval r = (unitProduct r).num / (unitProduct r).den := by
  unfold unitFloorEval unitStage2 unitStage3 unitStage4 unitProduct SAMPLE_LENGTH_MICROSECONDS
    ONE_LENGTH
  simp only [Nat.mul_eq, prim_div, f32DenEval_eq]
  rw [f32NumEval_eq r 1 Nat.one_pos]
  have h1 := f32Round_den_pos r 1
  generalize f32Round r 1 = x1 at *
  rw [f32NumEval_eq x1.num (x1.den * 1000) (by omega)]
  have h2 := f32Round_den_pos x1.num (x1.den * 1000)
  generalize f32Round x1.num (x1.den * 1000) = x2 at *
  rw [f32NumEval_eq x2.num (x2.den * 1000) (by omega)]
  have h3 := f32Round_den_pos x2.num (x2.den * 1000)
  generalize f32Round x2.num (x2.den * 1000) = x3 at *
  rw [f32NumEval_eq (320 * x3.num) x3.den h3]

/-- A passed table check gives the value at both ends of every step below the
bound. -/
theorem unitStepsOK_spec (n : Nat) (h : unitStepsOK n = true) (k : Nat) (hk : k < n) :
    unitFloorEval (3125 * k) = k ∧ unitFloorEval (3125 * k + 3124) = k := by
  induction n with
  | zero => omega
  | succ n ih =>
    rw [unitStepsOK, Bool.and_eq_true, Bool.and_eq_true] at h
    obtain ⟨⟨ha, hb⟩, hrest⟩ := h
    by_cases hkn : k = n
    · rw [hkn]
      exact ⟨Nat.eq_of_beq_eq_true ha, Nat.eq_of_beq_eq_true hb⟩
    · exact ih hrest (by omega)

/-- At both ends of every step of `floor (r / 3125)` below 12,800,000 samples per
second, the integer part of the binary32 product is the number of the step. -/
theorem unitProduct_steps :
    ∀ k, k < 4096 →
      (unitProduct (3125 * k)).num / (unitProduct (3125 * k)).den = k ∧
      (unitProduct (3125 * k + 3124)).num / (unitProduct (3125 * k + 3124)).den = k := by
  intro k hk
  have htable : unitStepsOK 4096 = true := by decide!
  have := unitStepsOK_spec 4096 htable k hk
  rwa [unitFloorEval_eq, unitFloorEval_eq] at this

/-- At both ends of the last step below the sample rate 12,803,124 the integer
part of the binary32 product is 4096. -/
theorem unitProduct_last_step :
    (unitProduct 12800000).num / (unitProduct 12800000).den = 4096 ∧
    (unitProduct 12803123).num / (unitProduct 12803123).den = 4096 := by
  rw [← unitFloorEval_eq, ← unitFloorEval_eq]
  decide!

/-- C15 (as the code behaves): for every integer sample rate `r` below 12,803,124
samples per second, the unit computed in `_generateBitStream` is
`floor (320 * r / 1000000)` and the decision threshold is twice the unit; at
`r = 44100` the unit is 14 and the threshold 28. -/
theorem unit_timing_matches_floor (r : Nat) (hr : r < 12803124) :
    SINGLE_TIMEFRAME r = 320 * r / 1000000 ∧
    DOUBLE_TIMEFRAME r = 2 * SINGLE_TIMEFRAME r ∧
    SINGLE_TIMEFRAME 44100 = 14 ∧ DOUBLE_TIMEFRAME 44100 = 28 := by
  have hfloor : 320 * r / 1000000 = r / 3125 := by omega
  have hT : (unitProduct r).num / (unitProduct r).den = r / 3125 := by
    by_cases hk : r / 3125 < 4096
    · obtain ⟨hlo, hhi⟩ := unitProduct_steps (r / 3125) hk
      have h1 := unitProduct_floor_mono (3125 * (r / 3125)) r (by omega)
      have h2 := unitProduct_floor_mono r (3125 * (r / 3125) + 3124) (by omega)
      rw [hlo] at h1
      rw [hhi] at h2
      omega
    · obtain ⟨hlo, hhi⟩ := unitProduct_last_step
      have h1 := unitProduct_floor_mono 12800000 r (by omega)
      have h2 := unitProduct_floor_mono r 12803123 (by omega)
      rw [hlo] at h1
      rw [hhi] at h2
      omega
  have hS : SINGLE_TIMEFRAME r = r / 3125 := by
    rw [SINGLE_TIMEFRAME_eq, hT]
    unfold UINT_MOD
    omega
  refine ⟨by rw [hS, hfloor], ?_, by decide, by decide⟩
  unfold DOUBLE_TIMEFRAME
  rw [hS]
  unfold UINT_MOD
  omega

/-- Witness for C15: the sample rate 44100. -/
theorem unit_timing_matches_floor_witness :
    SINGLE_TIMEFRAME 44100 = 320 * 44100 / 1000000 ∧
    DOUBLE_TIMEFRAME 44100 = 2 * SINGLE_TIMEFRAME 44100 ∧
    SINGLE_TIMEFRAME 44100 = 14 ∧ DOUBLE_TIMEFRAME 44100 = 28 :=
  unit_timing_matches_floor 44100 (by decide)

/-- C15 as stated fails: at the sample rate 12,803,124 the binary32 evaluation
gives the unit 4097, while `floor (320 * r / 1000000)` is 4096. -/
theorem unit_timing_differs_from_floor :
    SINGLE_TIMEFRAME 12803124 = 4097 ∧ 320 * 12803124 / 1000000 = 4096 ∧
    SINGLE_TIMEFRAME 12803124 ≠ 320 * 12803124 / 1000000 := by
  decide

end DataExtractor
